import Mathlib

/-!
Verification development for the dense linear-algebra kernel core of the
repository: the dogleg trust-region step (`ei_dogleg`), the selfadjoint
eigenvalue solver (`SelfAdjointEigenSolver::compute` and
`ei_tridiagonal_qr_step`), and the skyline in-place LU factorization
(`SkylineInplaceLU`).

Scalars are embedded as exact real numbers (the C++ code instantiates the
templates at `double`); floating-point rounding is not modelled.  Vectors are
total functions `ℕ → ℝ` together with an explicit length `n`; the algorithms
only ever read and write indices below the relevant bounds.
-/

namespace EigenVerify

open Finset

/-- Modelled from the spec: `epsilon<Scalar>()`, the machine epsilon of the
scalar type (`double`), supplied by the numeric-trait collaborator that is not
part of the sources.  It is a fixed positive constant; only its positivity
matters for the statements below. -/
noncomputable def epsmch : ℝ := 2 ^ (-(52 : ℤ))

theorem epsmch_pos : 0 < epsmch := by unfold epsmch; positivity

/-! ### Packed triangular storage

The dogleg routine receives the upper-triangular factor `R` packed by rows:
row `j` holds the `n - j` entries `R (j, j), …, R (j, n-1)`.  `rIdx n j i` is
the position of entry `(j, i)` (for `j ≤ i < n`) inside the packed array; the
running counters `jj` and `l` of the source take exactly these values. -/

def rowOffset (n j : ℕ) : ℕ := ∑ m ∈ range j, (n - m)

def rIdx (n j i : ℕ) : ℕ := rowOffset n j + (i - j)

/-- Index sequence of the column scan in `ei_dogleg` (source: `l = j;` then
`l = l + n - i` after reading step `i`): the `i`-th index read is
`j + ∑_{m<i} (n - m)`. -/
def scanIdx (n j i : ℕ) : ℕ := j + rowOffset n i

/-- The running maximum computed by the zero-diagonal scan of `ei_dogleg`
(source lines 44-50), starting from `temp = r[jj]` and taking
`temp = max(temp, |r[l]|)` for `i = 0, …, j`. -/
noncomputable def scanMax (r : ℕ → ℝ) (n j : ℕ) (t0 : ℝ) : ℝ :=
  (List.range (j + 1)).foldl (fun t i => max t |r (scanIdx n j i)|) t0

/-- The divisor used for row `j` of the Gauss-Newton back-substitution in
`ei_dogleg`: the packed diagonal entry `r[jj]` itself if it is nonzero,
otherwise `epsmch` times the scan maximum, with a final fallback to `epsmch`
when even that product is zero. -/
noncomputable def gnDiv (r : ℕ → ℝ) (n j : ℕ) : ℝ :=
  let t := r (rIdx n j j)
  if t = 0 then
    let t2 := epsmch * scanMax r n j t
    if t2 = 0 then epsmch else t2
  else t

/-- One iteration of the Gauss-Newton back-substitution loop of `ei_dogleg`:
overwrite `x j` using the already computed entries `x i`, `j < i < n`. -/
noncomputable def gnStep (r qtb : ℕ → ℝ) (n j : ℕ) (x : ℕ → ℝ) : ℕ → ℝ :=
  Function.update x j
    ((qtb j - ∑ i ∈ Ico (j + 1) n, r (rIdx n j i) * x i) / gnDiv r n j)

/-- The first `k` iterations of the back-substitution loop (iteration `k`
processes row `j = n - 1 - k`). -/
noncomputable def gnLoop (r qtb : ℕ → ℝ) (n : ℕ) : ℕ → (ℕ → ℝ) → (ℕ → ℝ)
  | 0, x => x
  | k + 1, x => gnStep r qtb n (n - 1 - k) (gnLoop r qtb n k x)

/-- The Gauss-Newton direction computed by the first loop of `ei_dogleg`,
overwriting the in/out argument `x`. -/
noncomputable def gnSolve (r qtb : ℕ → ℝ) (n : ℕ) (x0 : ℕ → ℝ) : ℕ → ℝ :=
  gnLoop r qtb n n x0

/-- Modelled from the spec: `stableNorm()`, the scale-avoiding Euclidean norm
supplied by the dense-vector collaborator; over exact reals it equals the
Euclidean norm of the first `n` entries. -/
noncomputable def stableNorm (n : ℕ) (v : ℕ → ℝ) : ℝ :=
  Real.sqrt (∑ i ∈ range n, v i ^ 2)

/-- The scaled gradient `wa1` computed by `ei_dogleg` (loops L70/L80):
`wa1 i = (∑_{j ≤ i} R (j, i) * qtb j) / diag i`. -/
noncomputable def dlGrad (r diag qtb : ℕ → ℝ) (n : ℕ) : ℕ → ℝ :=
  fun i => (∑ j ∈ range (i + 1), r (rIdx n j i) * qtb j) / diag i

/-- `qnorm` of `ei_dogleg`: the scaled norm of the Gauss-Newton step. -/
noncomputable def dlQnorm (r diag qtb : ℕ → ℝ) (n : ℕ) (x0 : ℕ → ℝ) : ℝ :=
  stableNorm n (fun j => diag j * gnSolve r qtb n x0 j)

/-- `gnorm` of `ei_dogleg`: the norm of the scaled gradient. -/
noncomputable def dlGnorm (r diag qtb : ℕ → ℝ) (n : ℕ) : ℝ :=
  stableNorm n (dlGrad r diag qtb n)

/-- `wa1` after normalization (loop L90): the scaled gradient direction,
divided once more by `gnorm` and by `diag`. -/
noncomputable def dlWa1n (r diag qtb : ℕ → ℝ) (n : ℕ) : ℕ → ℝ :=
  fun j => dlGrad r diag qtb n j / dlGnorm r diag qtb n / diag j

/-- `wa2` of loops L100/L110: `R` times the normalized direction. -/
noncomputable def dlWa2 (r diag qtb : ℕ → ℝ) (n : ℕ) : ℕ → ℝ :=
  fun j => ∑ i ∈ Ico j n, r (rIdx n j i) * dlWa1n r diag qtb n i

/-- `temp = wa2.stableNorm()` at L116. -/
noncomputable def dlTemp (r diag qtb : ℕ → ℝ) (n : ℕ) : ℝ :=
  stableNorm n (dlWa2 r diag qtb n)

/-- `sgnorm = gnorm / temp / temp`: distance to the minimizer along the
scaled gradient. -/
noncomputable def dlSgnorm (r diag qtb : ℕ → ℝ) (n : ℕ) : ℝ :=
  dlGnorm r diag qtb n / dlTemp r diag qtb n / dlTemp r diag qtb n

/-- `bnorm = qtb.stableNorm()`. -/
noncomputable def dlBnorm (qtb : ℕ → ℝ) (n : ℕ) : ℝ := stableNorm n qtb

/-- The first `temp` of the interpolation branch (source line 131). -/
noncomputable def dlT1 (r diag qtb : ℕ → ℝ) (delta : ℝ) (n : ℕ)
    (x0 : ℕ → ℝ) : ℝ :=
  dlBnorm qtb n / dlGnorm r diag qtb n *
    (dlBnorm qtb n / dlQnorm r diag qtb n x0) *
    (dlSgnorm r diag qtb n / delta)

/-- The updated `temp` of the interpolation branch (source line 133). -/
noncomputable def dlT2 (r diag qtb : ℕ → ℝ) (delta : ℝ) (n : ℕ)
    (x0 : ℕ → ℝ) : ℝ :=
  dlT1 r diag qtb delta n x0 -
    delta / dlQnorm r diag qtb n x0 * (dlSgnorm r diag qtb n / delta) ^ 2 +
    Real.sqrt ((dlT1 r diag qtb delta n x0 - delta / dlQnorm r diag qtb n x0) ^ 2 +
      (1 - (delta / dlQnorm r diag qtb n x0) ^ 2) *
        (1 - (dlSgnorm r diag qtb n / delta) ^ 2))

/-- `alpha` of the interpolation branch (source line 135). -/
noncomputable def dlAlpha (r diag qtb : ℕ → ℝ) (delta : ℝ) (n : ℕ)
    (x0 : ℕ → ℝ) : ℝ :=
  delta / dlQnorm r diag qtb n x0 * (1 - (dlSgnorm r diag qtb n / delta) ^ 2) /
    dlT2 r diag qtb delta n x0

/-- Shallow embedding of `ei_dogleg` (the whole routine): returns the final
contents of the in/out vector `x`.  The four branches are: Gauss-Newton step
inside the region (early return), zero gradient (`sgnorm = 0`,
`alpha = delta/qnorm`), steepest-descent point outside the region
(`alpha = 0`), and the interpolated dogleg point; the last three all end in
the convex combination at L141-L144. -/
noncomputable def ei_dogleg (r diag qtb : ℕ → ℝ) (delta : ℝ) (n : ℕ)
    (x0 : ℕ → ℝ) : ℕ → ℝ :=
  if dlQnorm r diag qtb n x0 ≤ delta then gnSolve r qtb n x0
  else if dlGnorm r diag qtb n = 0 then
    fun j => (1 - delta / dlQnorm r diag qtb n x0) * min 0 delta *
        dlGrad r diag qtb n j +
      delta / dlQnorm r diag qtb n x0 * gnSolve r qtb n x0 j
  else if delta ≤ dlSgnorm r diag qtb n then
    fun j => (1 - 0) * min (dlSgnorm r diag qtb n) delta * dlWa1n r diag qtb n j +
      0 * gnSolve r qtb n x0 j
  else
    fun j => (1 - dlAlpha r diag qtb delta n x0) * min (dlSgnorm r diag qtb n) delta *
        dlWa1n r diag qtb n j +
      dlAlpha r diag qtb delta n x0 * gnSolve r qtb n x0 j

/-- If the scaled Gauss-Newton step already satisfies the trust-region
constraint, `ei_dogleg` returns it unchanged (the early `return` at L140). -/
theorem ei_dogleg_of_qnorm_le (r diag qtb : ℕ → ℝ) (delta : ℝ) (n : ℕ)
    (x0 : ℕ → ℝ)
    (h : stableNorm n (fun j => diag j * gnSolve r qtb n x0 j) ≤ delta) :
    ei_dogleg r diag qtb delta n x0 = gnSolve r qtb n x0 := by
  have h2 : dlQnorm r diag qtb n x0 ≤ delta := h
  unfold ei_dogleg
  rw [if_pos h2]

/-- The packed 3×3 identity matrix, rows `[1,0,0], [1,0], [1]`. -/
noncomputable def r3id : ℕ → ℝ := fun l =>
  if l = 0 ∨ l = 3 ∨ l = 5 then 1 else 0

/-- The all-ones diagonal scaling. -/
noncomputable def onesV : ℕ → ℝ := fun _ => 1

/-- The vector `qtb = [3, 4, 0]`. -/
noncomputable def qtb34 : ℕ → ℝ := fun j =>
  if j = 0 then 3 else if j = 1 then 4 else 0

/-- The zero vector (initial contents of the in/out argument `x`). -/
noncomputable def zeroV : ℕ → ℝ := fun _ => 0

theorem gnSolve_r3id : gnSolve r3id qtb34 3 zeroV = qtb34 := by
  funext j
  have h0 : (3 : ℕ) - 1 - 0 = 2 := rfl
  have e5 : rIdx 3 2 2 = 5 := rfl
  have e3 : rIdx 3 1 1 = 3 := rfl
  have e4 : rIdx 3 1 2 = 4 := rfl
  have e0 : rIdx 3 0 0 = 0 := rfl
  have e1 : rIdx 3 0 1 = 1 := rfl
  have e2 : rIdx 3 0 2 = 2 := rfl
  have hstep : gnSolve r3id qtb34 3 zeroV =
      gnStep r3id qtb34 3 0 (gnStep r3id qtb34 3 1 (gnStep r3id qtb34 3 2 zeroV)) := by
    simp [gnSolve, gnLoop]
  have hdiv2 : gnDiv r3id 3 2 = 1 := by
    simp [gnDiv, e5, r3id]
  have hdiv1 : gnDiv r3id 3 1 = 1 := by
    simp [gnDiv, e3, r3id]
  have hdiv0 : gnDiv r3id 3 0 = 1 := by
    simp [gnDiv, e0, r3id]
  have hx2 : gnStep r3id qtb34 3 2 zeroV = Function.update zeroV 2 0 := by
    unfold gnStep
    rw [hdiv2]
    norm_num [qtb34]
  have hx1 : gnStep r3id qtb34 3 1 (Function.update zeroV 2 0) =
      Function.update (Function.update zeroV 2 0) 1 4 := by
    unfold gnStep
    rw [hdiv1]
    rw [show Finset.Ico 2 3 = {2} from rfl]
    norm_num [e4, r3id, qtb34]
  have hx0 : gnStep r3id qtb34 3 0
      (Function.update (Function.update zeroV 2 0) 1 4) =
      Function.update (Function.update (Function.update zeroV 2 0) 1 4) 0 3 := by
    unfold gnStep
    rw [hdiv0]
    rw [show Finset.Ico 1 3 = {1, 2} from rfl]
    norm_num [e1, e2, r3id, qtb34, Function.update]
  rw [hstep, hx2, hx1, hx0]
  rcases j with _ | _ | _ | j <;>
    simp [Function.update, qtb34, zeroV]

/-- C4: whenever the scaled Gauss-Newton step satisfies `‖D·x_gn‖ ≤ delta`,
`ei_dogleg` returns it unmodified; in particular for `R = I₃`,
`diag = [1,1,1]`, `qtb = [3,4,0]`, `delta = 10` the returned step is exactly
`qtb` (the Gauss-Newton step, of scaled norm 5 ≤ 10). -/
theorem C4_dogleg_gauss_newton_inside_region :
    (∀ (r diag qtb : ℕ → ℝ) (delta : ℝ) (n : ℕ) (x0 : ℕ → ℝ),
      stableNorm n (fun j => diag j * gnSolve r qtb n x0 j) ≤ delta →
      ei_dogleg r diag qtb delta n x0 = gnSolve r qtb n x0) ∧
    ei_dogleg r3id onesV qtb34 10 3 zeroV = qtb34 := by
  constructor
  · exact ei_dogleg_of_qnorm_le
  · rw [ei_dogleg_of_qnorm_le, gnSolve_r3id]
    rw [gnSolve_r3id]
    have hsum : stableNorm 3 (fun j => onesV j * qtb34 j) = 5 := by
      have : ∑ i ∈ range 3, (onesV i * qtb34 i) ^ 2 = 25 := by
        rw [Finset.sum_range_succ, Finset.sum_range_succ, Finset.sum_range_succ]
        norm_num [onesV, qtb34]
      rw [stableNorm, this, show (25 : ℝ) = 5 ^ 2 by norm_num,
        Real.sqrt_sq (by norm_num : (0 : ℝ) ≤ 5)]
    rw [hsum]
    norm_num

/-- Witness for C4: the general early-return statement applied at the concrete
input `R = I₃`, `diag = [1,1,1]`, `qtb = [3,4,0]`, `delta = 10`. -/
theorem C4_dogleg_gauss_newton_inside_region_witness :
    stableNorm 3 (fun j => onesV j * gnSolve r3id qtb34 3 zeroV j) ≤ 10 ∧
    ei_dogleg r3id onesV qtb34 10 3 zeroV = gnSolve r3id qtb34 3 zeroV := by
  have h : stableNorm 3 (fun j => onesV j * gnSolve r3id qtb34 3 zeroV j) ≤ 10 := by
    rw [gnSolve_r3id]
    have : ∑ i ∈ range 3, (onesV i * qtb34 i) ^ 2 = 25 := by
      rw [Finset.sum_range_succ, Finset.sum_range_succ, Finset.sum_range_succ]
      norm_num [onesV, qtb34]
    rw [stableNorm, this, show (25 : ℝ) = 5 ^ 2 by norm_num,
      Real.sqrt_sq (by norm_num : (0 : ℝ) ≤ 5)]
    norm_num
  exact ⟨h, C4_dogleg_gauss_newton_inside_region.1 r3id onesV qtb34 10 3 zeroV h⟩

/-! ### C6: the zero-diagonal substitution of the back-substitution

The spec says the substituted divisor is machine epsilon times the largest
absolute value among the entries of *column* `j` of `R`.  Column `j` of the
row-packed upper triangle consists of the entries `(i, j)` for `i ≤ j`, at
packed positions `rIdx n i j`.  The source's scan instead advances its index
by `n - i` (instead of `n - i - 1`), visiting `scanIdx n j i = j + rowOffset n i`,
which is the position of entry `(i, i + j)` — the `j`-th superdiagonal — and
runs past the end of the packed array when `2 j > n - 1`. -/

/-- The divisor the spec describes for a zero diagonal entry: machine epsilon
times the largest absolute value among the entries of column `j` of `R`
(with the final fallback to plain machine epsilon when that product is zero).
This definition follows the spec's words and is compared against `gnDiv`,
which is translated from the source. -/
noncomputable def specGnDiv (r : ℕ → ℝ) (n j : ℕ) : ℝ :=
  let t := r (rIdx n j j)
  if t = 0 then
    let t2 := epsmch *
      (List.range (j + 1)).foldl (fun a i => max a |r (rIdx n i j)|) t
    if t2 = 0 then epsmch else t2
  else t

/-- Failing input for C6: `n = 3`,
`R = [[1,0,0],[·,0,7],[·,·,1]]` packed by rows as `[1,0,0,0,7,1]`. -/
noncomputable def rC6 : ℕ → ℝ := fun l =>
  if l = 0 ∨ l = 5 then 1 else if l = 4 then 7 else 0

/-- The right-hand side `qtb = [0,1,0]` for the C6 failing input. -/
noncomputable def qtbC6 : ℕ → ℝ := fun j => if j = 1 then 1 else 0

/-- C6 (code evaluated at the failing input): for row `j = 1`, whose diagonal
`R (1,1)` is exactly zero, the code's divisor is `7 · epsmch` — `7` being the
entry `R (1,2)` of the *superdiagonal*, not of column 1 — while the divisor
described by the spec (epsilon times the largest absolute value in column 1,
whose entries are `R (0,1) = 0` and `R (1,1) = 0`, with the zero fallback) is
`epsmch`; consequently the two differ, and the computed Gauss-Newton entry is
`x 1 = 1 / (7 · epsmch)` instead of `1 / epsmch`. -/
theorem C6_zero_diagonal_scan_divergence :
    gnDiv rC6 3 1 = 7 * epsmch ∧
    specGnDiv rC6 3 1 = epsmch ∧
    gnDiv rC6 3 1 ≠ specGnDiv rC6 3 1 ∧
    gnSolve rC6 qtbC6 3 zeroV 1 = 1 / (7 * epsmch) := by
  have hd3 : rC6 (rIdx 3 1 1) = 0 := by norm_num [show rIdx 3 1 1 = 3 from rfl, rC6]
  have hcode : gnDiv rC6 3 1 = 7 * epsmch := by
    unfold gnDiv
    rw [hd3]
    have hscan : scanMax rC6 3 1 0 = 7 := by
      unfold scanMax
      rw [show List.range 2 = [0, 1] from rfl]
      have i0 : scanIdx 3 1 0 = 1 := rfl
      have i1 : scanIdx 3 1 1 = 4 := rfl
      simp [i0, i1, rC6]
    rw [if_pos rfl, hscan]
    have : epsmch * 7 ≠ 0 := by
      have := epsmch_pos; positivity
    rw [if_neg this]
    ring
  have hspec : specGnDiv rC6 3 1 = epsmch := by
    unfold specGnDiv
    rw [hd3, if_pos rfl]
    have : (List.range 2).foldl (fun a i => max a |rC6 (rIdx 3 i 1)|) (0 : ℝ) = 0 := by
      rw [show List.range 2 = [0, 1] from rfl]
      have i0 : rIdx 3 0 1 = 1 := rfl
      have i1 : rIdx 3 1 1 = 3 := rfl
      simp [i0, i1, rC6]
    rw [this]
    norm_num
  refine ⟨hcode, hspec, ?_, ?_⟩
  · rw [hcode, hspec]
    have := epsmch_pos
    intro h
    nlinarith
  · have h2 : gnSolve rC6 qtbC6 3 zeroV =
        gnStep rC6 qtbC6 3 0 (gnStep rC6 qtbC6 3 1 (gnStep rC6 qtbC6 3 2 zeroV)) := by
      simp [gnSolve, gnLoop]
    have hx2 : gnStep rC6 qtbC6 3 2 zeroV = Function.update zeroV 2 0 := by
      unfold gnStep
      have : gnDiv rC6 3 2 = 1 := by
        simp [gnDiv, show rIdx 3 2 2 = 5 from rfl, rC6]
      rw [this]
      norm_num [qtbC6]
    rw [h2, hx2]
    have hval : gnStep rC6 qtbC6 3 1 (Function.update zeroV 2 0) 1 =
        1 / (7 * epsmch) := by
      unfold gnStep
      rw [Function.update_same, hcode]
      rw [show Finset.Ico 2 3 = {2} from rfl]
      simp [show rIdx 3 1 2 = 4 from rfl, rC6, qtbC6, Function.update]
    have : gnStep rC6 qtbC6 3 0 (gnStep rC6 qtbC6 3 1 (Function.update zeroV 2 0)) 1 =
        gnStep rC6 qtbC6 3 1 (Function.update zeroV 2 0) 1 := by
      unfold gnStep
      rw [Function.update_noteq (by norm_num)]
    rw [this, hval]

/-! ### Skyline in-place LU

The `SkylineMatrix` storage class itself is not among the sources (only its
user `SkylineInplaceLU` is), so the storage is modelled from the spec: a
skyline matrix stores the diagonal, for every row `r` the contiguous lower
entries `(r, c)` with `lowBeg r ≤ c < r`, and for every column `c` the
contiguous upper entries `(r, c)` with `upBeg c ≤ r < c`; entries outside
this profile are structural zeros.  The matrix contents are embedded as a
total function `ℕ → ℕ → K` together with the profile, and each factorization
step rewrites the function, which models the in-place overwriting of the
storage. -/

/-- Modelled from the spec: the skyline profile — per-row start of the stored
lower entries and per-column start of the stored upper entries. -/
structure SkyProfile where
  lowBeg : ℕ → ℕ
  upBeg : ℕ → ℕ

/-- Modelled from the spec: entry `(r, c)` is inside the skyline profile
(diagonal entries always are). -/
def inProf (P : SkyProfile) (r c : ℕ) : Prop :=
  (c < r → P.lowBeg r ≤ c) ∧ (r < c → P.upBeg c ≤ r)

instance (P : SkyProfile) (r c : ℕ) : Decidable (inProf P r c) := by
  unfold inProf; infer_instance

variable {K : Type} [Field K] [DecidableEq K]

/-- A matrix is represented by the skyline storage: every entry outside the
profile is zero. -/
def SkyRep (P : SkyProfile) (A : ℕ → ℕ → K) : Prop :=
  ∀ r c, ¬ inProf P r c → A r c = 0

/-- Step `k` of `SkylineInplaceLU::compute` (column-major variant), part 1:
scale the stored lower entries of column `k` by the pivot diagonal value. -/
def luScale (P : SkyProfile) (n k : ℕ) (M : ℕ → ℕ → K) : ℕ → ℕ → K :=
  fun r c => if c = k ∧ k < r ∧ r < n ∧ inProf P r c then M r c / M k k else M r c

/-- Step `k` of `SkylineInplaceLU::compute`, part 2: the outer-product
Gaussian-elimination update of the trailing submatrix (upper entries, lower
entries and diagonal entries of the rows below the pivot), restricted to
entries within the skyline profile. -/
def luUpdate (P : SkyProfile) (n k : ℕ) (M : ℕ → ℕ → K) : ℕ → ℕ → K :=
  fun r c =>
    if k < r ∧ r < n ∧ k < c ∧ c < n ∧ inProf P r c then M r c - M r k * M k c
    else M r c

/-- One full pivot step of the column-major factorization. -/
def luStep (P : SkyProfile) (n k : ℕ) (M : ℕ → ℕ → K) : ℕ → ℕ → K :=
  luUpdate P n k (luScale P n k M)

/-- The first `k` pivot steps of `SkylineInplaceLU::compute`. -/
def luIter (P : SkyProfile) (n : ℕ) (M : ℕ → ℕ → K) : ℕ → (ℕ → ℕ → K)
  | 0 => M
  | k + 1 => luStep P n k (luIter P n M k)

/-- `SkylineInplaceLU::compute` (column-major variant): run all `n` pivot
steps in place. -/
def Skyline_compute (P : SkyProfile) (n : ℕ) (M : ℕ → ℕ → K) : ℕ → ℕ → K :=
  luIter P n M n

/-- The unit lower-triangular factor read back from the factored storage
(unit diagonal not stored). -/
def Lent (M : ℕ → ℕ → K) (r j : ℕ) : K :=
  if j < r then M r j else if j = r then 1 else 0

/-- The upper-triangular factor (with its diagonal) read back from the
factored storage. -/
def Uent (M : ℕ → ℕ → K) (j c : ℕ) : K :=
  if j ≤ c then M j c else 0

/-- Inner dot-product range of `computeRowMajor`: the overlap of row `r`'s
stored lower segment and column `c`'s stored upper segment, aligned via the
`offset` between the two iterators (source lines 214-238). -/
def overlapBeg (P : SkyProfile) (r c : ℕ) : ℕ := max (P.lowBeg r) (P.upBeg c)

/-- Overwrite a single entry of an in-place stored matrix. -/
def upd2 (M : ℕ → ℕ → K) (i j : ℕ) (v : K) : ℕ → ℕ → K :=
  fun r c => if r = i ∧ c = j then v else M r c

/-- Row phase of `SkylineInplaceLU::computeRowMajor` for row `row`: update the
stored lower entries of the row left to right; each new value is the old one
minus the dot product of the already-updated row segment of `L` and the
already-factored column segment of `U` over their overlapping index range,
divided by the pivot diagonal of `col` (source lines 202-243). -/
def rmLowerPhase (P : SkyProfile) (row : ℕ) (M : ℕ → ℕ → K) : ℕ → ℕ → K :=
  (List.range row).foldl
    (fun Macc col =>
      if P.lowBeg row ≤ col then
        upd2 Macc row col
          ((Macc row col -
            ∑ m ∈ Ico (overlapBeg P row col) col, Macc row m * Macc m col) /
            Macc col col)
      else Macc)
    M

/-- Upper phase of `SkylineInplaceLU::computeRowMajor` for column `row`:
update the stored upper entries of the column top to bottom by analogous dot
products (source lines 245-276, no division). -/
def rmUpperPhase (P : SkyProfile) (row : ℕ) (M : ℕ → ℕ → K) : ℕ → ℕ → K :=
  (List.range row).foldl
    (fun Macc rrow =>
      if P.upBeg row ≤ rrow then
        upd2 Macc rrow row
          (Macc rrow row -
            ∑ m ∈ Ico (overlapBeg P rrow row) rrow, Macc rrow m * Macc m row)
      else Macc)
    M

/-- Diagonal phase of `SkylineInplaceLU::computeRowMajor` for row `row`
(source lines 279-304). -/
def rmDiagPhase (P : SkyProfile) (row : ℕ) (M : ℕ → ℕ → K) : ℕ → ℕ → K :=
  upd2 M row row
    (M row row - ∑ m ∈ Ico (overlapBeg P row row) row, M row m * M m row)

/-- `SkylineInplaceLU::computeRowMajor`: process every row in order. -/
def Skyline_computeRowMajor (P : SkyProfile) (n : ℕ) (M : ℕ → ℕ → K) :
    ℕ → ℕ → K :=
  (List.range n).foldl
    (fun Macc row => rmDiagPhase P row (rmUpperPhase P row (rmLowerPhase P row Macc)))
    M

/-- Forward substitution of `SkylineInplaceLU::solve` (source lines 323-336):
for each row in order, `x row` becomes `b row` minus the accumulated products
over the structurally nonzero lower entries of the row. -/
def skySolveFwd (P : SkyProfile) (M : ℕ → ℕ → K) (b : ℕ → K) (n : ℕ) :
    (ℕ → K) → (ℕ → K) :=
  fun x0 =>
    (List.range n).foldl
      (fun x row =>
        Function.update x row
          (b row - ∑ c ∈ (range row).filter (fun c => P.lowBeg row ≤ c), x c * M row c))
      x0

/-- One column of the back substitution of `SkylineInplaceLU::solve` (source
lines 339-355): divide `x col` by the diagonal, then subtract `x col` times
the stored upper entries of column `col` from the rows above. -/
def skyBwdStep (P : SkyProfile) (M : ℕ → ℕ → K) (col : ℕ) (x : ℕ → K) :
    ℕ → K :=
  fun r =>
    if r = col then x col / M col col
    else if r < col ∧ P.upBeg col ≤ r then x r - x col / M col col * M r col
    else x r

/-- The back-substitution loop of `SkylineInplaceLU::solve`, processing
columns `m, m-1, …, 1`. -/
def skySolveBwd (P : SkyProfile) (M : ℕ → ℕ → K) : ℕ → (ℕ → K) → (ℕ → K)
  | 0, x => x
  | m + 1, x => skySolveBwd P M m (skyBwdStep P M (m + 1) x)

/-- `SkylineInplaceLU::solve` (source lines 316-359): forward substitution
through `L`, back substitution through `U`, final division of `x 0` by the
first diagonal entry; the `transposed` argument is accepted and ignored, and
the function returns `true` unconditionally. -/
def Skyline_solve (P : SkyProfile) (M : ℕ → ℕ → K) (n : ℕ) (b : ℕ → K)
    (x0 : ℕ → K) (transposed : ℤ) : (ℕ → K) × Bool :=
  let x1 := skySolveFwd P M b n x0
  let x2 := skySolveBwd P M (n - 1) x1
  let _ := transposed
  (Function.update x2 0 (x2 0 / M 0 0), true)

/-! ### The `SkylineInplaceLU` object state (for C9)

`m_succeeded` is declared but never assigned anywhere in the class, so it is
modelled as an `Option Bool` which is `none` while unwritten; `succeeded()`
simply reads it. -/

/-- The data members of a `SkylineInplaceLU` object (source lines 118-124).
The referenced matrix is carried as its contents plus profile, row-major
flag and dimension. -/
structure SkylineLUState (K : Type) where
  m_precision : K
  m_flags : ℤ
  m_status : ℤ
  m_succeeded : Option Bool
  isRowMajor : Bool
  profile : SkyProfile
  n : ℕ
  m_lu : ℕ → ℕ → K

/-- `SkylineInplaceLU::compute` as an operation on the object state: it
rewrites the matrix storage in place and touches nothing else. -/
def SkylineLUState.compute (st : SkylineLUState K) : SkylineLUState K :=
  { st with m_lu := Skyline_compute st.profile st.n st.m_lu }

/-- `SkylineInplaceLU::computeRowMajor` as an operation on the object state. -/
def SkylineLUState.computeRowMajor (st : SkylineLUState K) : SkylineLUState K :=
  { st with m_lu := Skyline_computeRowMajor st.profile st.n st.m_lu }

/-- The constructor `SkylineInplaceLU(matrix, flags)` (source lines 47-51):
store the flags, zero the status, set the precision, and immediately run the
factorization matching the storage orientation.  `m_succeeded` is left
unwritten (`none`). -/
def SkylineLUState.init (P : SkyProfile) (n : ℕ) (isRowMajor : Bool)
    (matrix : ℕ → ℕ → K) (flags : ℤ) (dummyPrecision : K) : SkylineLUState K :=
  let st : SkylineLUState K :=
    { m_precision := (1 / 10 : K) * dummyPrecision
      m_flags := flags
      m_status := 0
      m_succeeded := none
      isRowMajor := isRowMajor
      profile := P
      n := n
      m_lu := matrix }
  if isRowMajor then st.computeRowMajor else st.compute

/-- `SkylineInplaceLU::solve` as an operation on the object state: it is
`const` — the state is unchanged — and it returns the solution vector
together with its unconditional `true` result. -/
def SkylineLUState.solve (st : SkylineLUState K) (b : ℕ → K) (x0 : ℕ → K)
    (transposed : ℤ) : SkylineLUState K × ((ℕ → K) × Bool) :=
  (st, Skyline_solve st.profile st.m_lu st.n b x0 transposed)

/-- `SkylineInplaceLU::succeeded()` (source lines 114-116): read the
`m_succeeded` member. -/
def SkylineLUState.succeeded (st : SkylineLUState K) : Option Bool :=
  st.m_succeeded

/-- The mutating operations available on a `SkylineInplaceLU` object after
construction (source lines 63-111 and 99-101): the setters, the two
factorization routines and `solve`. -/
inductive SkylineOp (K : Type) where
  | setPrecision (v : K)
  | setFlags (f : ℤ)
  | setOrderingMethod (m : ℤ)
  | compute
  | computeRowMajor
  | solve (b : ℕ → K) (x0 : ℕ → K) (transposed : ℤ)

/-- Apply one operation to the object state. -/
def SkylineLUState.apply (st : SkylineLUState K) : SkylineOp K → SkylineLUState K
  | SkylineOp.setPrecision v => { st with m_precision := v }
  | SkylineOp.setFlags f => { st with m_flags := f }
  | SkylineOp.setOrderingMethod m => { st with m_flags := m }
  | SkylineOp.compute => st.compute
  | SkylineOp.computeRowMajor => st.computeRowMajor
  | SkylineOp.solve b x0 t => (st.solve b x0 t).1

/-- Apply a sequence of operations. -/
def SkylineLUState.applyAll (st : SkylineLUState K) : List (SkylineOp K) → SkylineLUState K
  | [] => st
  | op :: ops => (st.apply op).applyAll ops

/-- C8: `SkylineInplaceLU::solve` returns `true` for every factorization
state, right-hand side, output vector and `transposed` argument; no input
ever makes it signal failure. -/
theorem C8_skyline_solve_always_true (P : SkyProfile) (M : ℕ → ℕ → ℝ) (n : ℕ)
    (b : ℕ → ℝ) (x0 : ℕ → ℝ) (transposed : ℤ) :
    (Skyline_solve P M n b x0 transposed).2 = true := rfl

/-- C9: no operation of `SkylineInplaceLU` ever assigns `m_succeeded`: after
construction (which runs the factorization) and any sequence of setter,
factorization and solve calls, the member is still unwritten, so
`succeeded()` returns the indeterminate unwritten value rather than the
outcome of the factorization. -/
theorem C9_succeeded_never_assigned (P : SkyProfile) (n : ℕ) (rm : Bool)
    (matrix : ℕ → ℕ → ℝ) (flags : ℤ) (dummyPrecision : ℝ)
    (ops : List (SkylineOp ℝ)) :
    ((SkylineLUState.init P n rm matrix flags dummyPrecision).applyAll ops).succeeded
      = none := by
  have happ : ∀ (st : SkylineLUState ℝ) (op : SkylineOp ℝ),
      (st.apply op).m_succeeded = st.m_succeeded := by
    intro st op
    cases op <;>
      simp [SkylineLUState.apply, SkylineLUState.compute,
        SkylineLUState.computeRowMajor, SkylineLUState.solve]
  have hall : ∀ (l : List (SkylineOp ℝ)) (st : SkylineLUState ℝ),
      (st.applyAll l).m_succeeded = st.m_succeeded := by
    intro l
    induction l with
    | nil => intro st; rfl
    | cons op ops ih =>
        intro st
        rw [SkylineLUState.applyAll, ih, happ]
  rw [SkylineLUState.succeeded, hall]
  unfold SkylineLUState.init
  by_cases h : rm <;>
    simp [h, SkylineLUState.computeRowMajor, SkylineLUState.compute]

/-! ### SelfAdjoint eigenvalue solver

`Tridiagonalization::decomposeInPlace` and the Givens rotation primitive
(`PlanarRotation`) are external collaborators that are not among the sources;
the tridiagonalization's outputs (`diag`, `subdiag`, and the contents of the
working storage `m_eivec`) are therefore taken as parameters, and the rotation
is modelled from the spec. -/

/-- Modelled from the spec: `dummy_precision<Scalar>()`, the default relative
threshold of the fuzzy comparisons supplied by the numeric-trait collaborator;
a fixed positive constant. -/
noncomputable def dummyPrec : ℝ := epsmch

/-- Modelled from the spec: the Givens rotation primitive
(`PlanarRotation::makeGivens`): a 2×2 rotation `(c, s)` that zeroes the
second entry of the vector `(p, q)`. -/
noncomputable def makeGivens (p q : ℝ) : ℝ × ℝ :=
  if p = 0 ∧ q = 0 then (1, 0)
  else (p / Real.sqrt (p ^ 2 + q ^ 2), -(q / Real.sqrt (p ^ 2 + q ^ 2)))

/-- Modelled from the spec: `applyOnTheRight (k, k+1, rot)` — accumulate the
Givens rotation into the working transform by right-multiplying the two
adjacent columns `k` and `k + 1`. -/
noncomputable def applyGivensRight (c s : ℝ) (k : ℕ) (Q : ℕ → ℕ → ℝ) :
    ℕ → ℕ → ℝ :=
  fun i j =>
    if j = k then c * Q i k - s * Q i (k + 1)
    else if j = k + 1 then s * Q i k + c * Q i (k + 1)
    else Q i j

/-- The loop state of `ei_tridiagonal_qr_step`: the two tridiagonal vectors,
the bulge-chasing pair `(x, z)`, and the optionally accumulated transform
(`matrixQ` is a null pointer when eigenvectors are not requested). -/
structure QRState where
  d : ℕ → ℝ
  e : ℕ → ℝ
  x : ℝ
  z : ℝ
  q : Option (ℕ → ℕ → ℝ)

/-- One iteration (index `k`) of the Givens chain in `ei_tridiagonal_qr_step`
(source lines 377-407). -/
noncomputable def qrInner (start endI k : ℕ) (st : QRState) : QRState :=
  let cs := makeGivens st.x st.z
  let c := cs.1
  let s := cs.2
  let sdk := s * st.d k + c * st.e k
  let dkp1 := s * st.e k + c * st.d (k + 1)
  let d1 := Function.update
    (Function.update st.d k
      (c * (c * st.d k - s * st.e k) - s * (c * st.e k - s * st.d (k + 1))))
    (k + 1) (s * sdk + c * dkp1)
  let e1 := Function.update st.e k (c * sdk - s * dkp1)
  let e2 := if start < k then Function.update e1 (k - 1) (c * e1 (k - 1) - s * st.z)
    else e1
  let x1 := e2 k
  let z1 := if k < endI - 1 then -s * st.e (k + 1) else st.z
  let e3 := if k < endI - 1 then Function.update e2 (k + 1) (c * st.e (k + 1))
    else e2
  let q1 := st.q.map (applyGivensRight c s k)
  ⟨d1, e3, x1, z1, q1⟩

/-- The Givens chain: `m` iterations starting at `k = start`. -/
noncomputable def qrFold (start endI : ℕ) : ℕ → QRState → QRState
  | 0, st => st
  | m + 1, st => qrInner start endI (start + m) (qrFold start endI m st)

/-- Shallow embedding of `ei_tridiagonal_qr_step` (source lines 368-408):
compute the Wilkinson shift from the trailing 2×2 block and run the Givens
chain from `start` to `endI - 1`.  The dimension argument `n` only sizes the
`Map` of `matrixQ` in the source and is unused here. -/
noncomputable def ei_tridiagonal_qr_step (d e : ℕ → ℝ) (start endI : ℕ)
    (q : Option (ℕ → ℕ → ℝ)) (n : ℕ) : QRState :=
  let _ := n
  let td := (d (endI - 1) - d endI) * (1 / 2)
  let e2v := e (endI - 1) ^ 2
  let mu := d endI - e2v / (td + (if 0 < td then 1 else -1) * Real.sqrt (td ^ 2 + e2v))
  qrFold start endI (endI - start) ⟨d, e, d start - mu, e start, q⟩

/-- The state of the deflation loop of `SelfAdjointEigenSolver::compute`
(source lines 233-251). -/
structure DeflState where
  d : ℕ → ℝ
  e : ℕ → ℝ
  start : ℕ
  endI : ℕ
  q : Option (ℕ → ℕ → ℝ)
  n : ℕ

/-- The negligible-subdiagonal zeroing scan (source lines 237-239): an entry
`e i`, `start ≤ i < endI`, is set to zero when `|e i|` is much smaller than
`|d i| + |d (i+1)|` (`ei_isMuchSmallerThan` with the default precision, a
collaborator modelled from the spec as `|x| ≤ |y| * dummyPrec`). -/
noncomputable def deflZero (d : ℕ → ℝ) (start endI : ℕ) (e : ℕ → ℝ) : ℕ → ℝ :=
  fun i =>
    if start ≤ i ∧ i < endI ∧ |e i| ≤ (|d i| + |d (i + 1)|) * dummyPrec then 0
    else e i

/-- `while (end > 0 && subdiag[end-1] == 0) end--;` (source lines 242-243). -/
noncomputable def findEnd (e : ℕ → ℝ) : ℕ → ℕ
  | 0 => 0
  | m + 1 => if e m = 0 then findEnd e m else m + 1

/-- `start = end - 1; while (start > 0 && subdiag[start-1] != 0) start--;`
(source lines 246-248), applied to `end - 1`. -/
noncomputable def findStart (e : ℕ → ℝ) : ℕ → ℕ
  | 0 => 0
  | m + 1 => if e m ≠ 0 then findStart e m else m + 1

/-- One iteration of the deflation loop: zero the negligible subdiagonal
entries, shrink `endI` past trailing zeros, and — unless everything is
deflated — locate the trailing unreduced block and apply one QR step to it. -/
noncomputable def deflBody (st : DeflState) : DeflState :=
  let e1 := deflZero st.d st.start st.endI st.e
  let end2 := findEnd e1 st.endI
  if end2 = 0 then ⟨st.d, e1, st.start, 0, st.q, st.n⟩
  else
    let start2 := findStart e1 (end2 - 1)
    let r := ei_tridiagonal_qr_step st.d e1 start2 end2 st.q st.n
    ⟨r.d, r.e, start2, end2, r.q, st.n⟩

/-- The deflation loop `while (end > 0) { … }`, with fuel: the source imposes
no iteration budget, so the loop is embedded as a fuel-indexed iterate (a
run that reaches `endI = 0` is unaffected by any larger fuel). -/
noncomputable def deflLoop : ℕ → DeflState → DeflState
  | 0, st => st
  | f + 1, st => if st.endI = 0 then st else deflLoop f (deflBody st)

/-- Index of the first minimum of `v` over `[i, n)` (the collaborator
`segment(i, n-i).minCoeff(&k)`, modelled from the spec, with `k` converted to
an absolute index). -/
def minIdxFrom {α : Type} [LinearOrder α] (v : ℕ → α) (i n : ℕ) : ℕ :=
  ((List.range (n - i)).map (· + i)).foldl (fun best j => if v j < v best then j else best) i

/-- One step of the eigenvalue selection sort (source lines 256-265), acting
on the eigenvalue vector and the eigenvector matrix together: find the first
minimum of the remaining suffix and swap both the eigenvalues and the
corresponding eigenvector columns when it is not already in place. -/
def sortStep {α β : Type} [LinearOrder α] (n : ℕ)
    (st : (ℕ → α) × (ℕ → ℕ → β)) (i : ℕ) : (ℕ → α) × (ℕ → ℕ → β) :=
  let k := minIdxFrom st.1 i n
  if i < k then
    (fun c => st.1 (Equiv.swap i k c), fun r c => st.2 r (Equiv.swap i k c))
  else st

/-- The first `m` iterations of the eigenvalue selection sort. -/
def sortPassAux {α β : Type} [LinearOrder α] (n : ℕ)
    (st : (ℕ → α) × (ℕ → ℕ → β)) (m : ℕ) : (ℕ → α) × (ℕ → ℕ → β) :=
  (List.range m).foldl (sortStep n) st

/-- The full eigenvalue selection sort (`for i in [0, n-1)`). -/
def sortPass {α β : Type} [LinearOrder α] (n : ℕ)
    (st : (ℕ → α) × (ℕ → ℕ → β)) : (ℕ → α) × (ℕ → ℕ → β) :=
  sortPassAux n st (n - 1)

/-- The state of `SelfAdjointEigenSolver::compute` just before the sorting
pass: for `n = 1` the special-cased result (sole eigenvalue = the real part
of the single entry — the identity on real scalars — and eigenvector matrix
set to ones), otherwise the outcome of the deflation loop run on the
tridiagonalization collaborator's outputs `d0`, `e0`, `q0` (`q0` being the
contents of the working storage `m_eivec`; the QR steps receive a null
`matrixQ` when `computeEigenvectors` is false). -/
noncomputable def computePreSort (n : ℕ) (A : ℕ → ℕ → ℝ)
    (computeEigenvectors : Bool) (d0 e0 : ℕ → ℝ) (q0 : ℕ → ℕ → ℝ)
    (fuel : ℕ) : (ℕ → ℝ) × (ℕ → ℕ → ℝ) :=
  if n = 1 then (fun _ => A 0 0, fun _ _ => 1)
  else
    let st := deflLoop fuel
      ⟨d0, e0, 0, n - 1, if computeEigenvectors then some q0 else none, n⟩
    (st.d, st.q.getD q0)

/-- Shallow embedding of `SelfAdjointEigenSolver::compute` (source lines
206-267): the `n = 1` special case, the deflation/QR loop, then the
eigenvalue selection sort (which is vacuous for `n = 1`, matching the early
return). -/
noncomputable def SelfAdjointEigenSolver_compute (n : ℕ) (A : ℕ → ℕ → ℝ)
    (computeEigenvectors : Bool) (d0 e0 : ℕ → ℝ) (q0 : ℕ → ℕ → ℝ)
    (fuel : ℕ) : (ℕ → ℝ) × (ℕ → ℕ → ℝ) :=
  sortPass n (computePreSort n A computeEigenvectors d0 e0 q0 fuel)

/-- C5: on a 1×1 matrix, `compute` sets the sole eigenvalue to the (real part
of the) single entry and the eigenvector matrix to the scalar 1, for both
values of the `computeEigenvectors` flag. -/
theorem C5_compute_1x1 (A : ℕ → ℕ → ℝ) (computeEigenvectors : Bool)
    (d0 e0 : ℕ → ℝ) (q0 : ℕ → ℕ → ℝ) (fuel : ℕ) :
    (SelfAdjointEigenSolver_compute 1 A computeEigenvectors d0 e0 q0 fuel).1 0
        = A 0 0 ∧
    ∀ i j, (SelfAdjointEigenSolver_compute 1 A computeEigenvectors d0 e0 q0 fuel).2 i j
        = 1 := by
  have h : SelfAdjointEigenSolver_compute 1 A computeEigenvectors d0 e0 q0 fuel
      = (fun _ => A 0 0, fun _ _ => 1) := by
    unfold SelfAdjointEigenSolver_compute sortPass sortPassAux computePreSort
    simp
  rw [h]
  exact ⟨rfl, fun i j => rfl⟩

theorem foldlMin_spec {α : Type} [LinearOrder α] (v : ℕ → α) (l : List ℕ) :
    ∀ best : ℕ,
      (l.foldl (fun b j => if v j < v b then j else b) best = best ∨
        l.foldl (fun b j => if v j < v b then j else b) best ∈ l) ∧
      v (l.foldl (fun b j => if v j < v b then j else b) best) ≤ v best ∧
      ∀ m ∈ l, v (l.foldl (fun b j => if v j < v b then j else b) best) ≤ v m := by
  induction l with
  | nil => intro best; exact ⟨Or.inl rfl, le_refl _, by simp⟩
  | cons j t ih =>
      intro best
      have step : (j :: t).foldl (fun b j => if v j < v b then j else b) best
          = t.foldl (fun b j => if v j < v b then j else b)
              (if v j < v best then j else best) := rfl
      obtain ⟨hmem, hle, hall⟩ := ih (if v j < v best then j else best)
      rw [step]
      refine ⟨?_, ?_, ?_⟩
      · rcases hmem with h | h
        · rw [h]
          by_cases hc : v j < v best
          · rw [if_pos hc]; exact Or.inr (List.mem_cons_self j t)
          · rw [if_neg hc]; exact Or.inl rfl
        · exact Or.inr (List.mem_cons_of_mem j h)
      · refine le_trans hle ?_
        by_cases hc : v j < v best
        · rw [if_pos hc]; exact le_of_lt hc
        · rw [if_neg hc]
      · intro m hm
        rcases List.mem_cons.mp hm with h | h
        · subst h
          refine le_trans hle ?_
          by_cases hc : v m < v best
          · rw [if_pos hc]
          · rw [if_neg hc]; exact le_of_not_lt hc
        · exact hall m h

theorem minIdxFrom_spec {α : Type} [LinearOrder α] (v : ℕ → α) (i n : ℕ)
    (h : i < n) :
    i ≤ minIdxFrom v i n ∧ minIdxFrom v i n < n ∧
      ∀ m, i ≤ m → m < n → v (minIdxFrom v i n) ≤ v m := by
  obtain ⟨hmem, _hle, hall⟩ :=
    foldlMin_spec v ((List.range (n - i)).map (· + i)) i
  have hrange : minIdxFrom v i n = i ∨
      minIdxFrom v i n ∈ (List.range (n - i)).map (· + i) := hmem
  constructor
  · rcases hrange with hr | hr
    · omega
    · obtain ⟨a, _, ha⟩ := List.mem_map.mp hr
      omega
  constructor
  · rcases hrange with hr | hr
    · omega
    · obtain ⟨a, hr2, ha⟩ := List.mem_map.mp hr
      have := List.mem_range.mp hr2
      omega
  · intro m him hmn
    exact hall m (List.mem_map.mpr ⟨m - i, List.mem_range.mpr (by omega), by omega⟩)

theorem sortStep_fst_of_lt {α β : Type} [LinearOrder α] (n : ℕ)
    (st : (ℕ → α) × (ℕ → ℕ → β)) (i a : ℕ) (ha : a < i) :
    (sortStep n st i).1 a = st.1 a := by
  unfold sortStep
  by_cases h2 : i < minIdxFrom st.1 i n
  · rw [if_pos h2]
    have h3 : a ≠ i := by omega
    have h4 : a ≠ minIdxFrom st.1 i n := by omega
    simp only []
    rw [Equiv.swap_apply_of_ne_of_ne h3 h4]
  · rw [if_neg h2]

theorem sortPassAux_succ {α β : Type} [LinearOrder α] (n : ℕ)
    (st : (ℕ → α) × (ℕ → ℕ → β)) (m : ℕ) :
    sortPassAux n st (m + 1) = sortStep n (sortPassAux n st m) m := by
  unfold sortPassAux
  rw [List.range_succ, List.foldl_append]
  rfl

/-- Invariant of the selection sort: after step `m`, the entries below `m`
are in place — each is at most every entry at or after it (up to `n`). -/
theorem sortPassAux_inv {α β : Type} [LinearOrder α] (n : ℕ)
    (st : (ℕ → α) × (ℕ → ℕ → β)) (m : ℕ) (hm : m ≤ n) :
    ∀ a b, a < m → a ≤ b → b < n → (sortPassAux n st m).1 a ≤ (sortPassAux n st m).1 b := by
  induction m with
  | zero => intro a b ha _ _; omega
  | succ m ih =>
      intro a b ha hab hb
      have hmn : m < n := by omega
      have ihm := ih (by omega)
      set u := (sortPassAux n st m).1 with hu
      obtain ⟨hk1, hk2, hk3⟩ := minIdxFrom_spec u m n hmn
      set k := minIdxFrom u m n with hk
      rw [sortPassAux_succ]
      by_cases hswap : m < k
      · have hv : ∀ c, (sortStep n (sortPassAux n st m) m).1 c =
            u (Equiv.swap m k c) := by
          intro c
          unfold sortStep
          rw [← hu, ← hk, if_pos hswap]
        rw [hv a, hv b]
        have htarget : ∀ b', m ≤ b' → b' < n →
            m ≤ Equiv.swap m k b' ∧ Equiv.swap m k b' < n := by
          intro b' hb1 hb2
          by_cases h1 : b' = m
          · subst h1; rw [Equiv.swap_apply_left]; omega
          · by_cases h2 : b' = k
            · subst h2; rw [Equiv.swap_apply_right]; omega
            · rw [Equiv.swap_apply_of_ne_of_ne h1 h2]; omega
        by_cases ham : a < m
        · have haa : Equiv.swap m k a = a :=
            Equiv.swap_apply_of_ne_of_ne (by omega) (by omega)
          rw [haa]
          by_cases hbm : b < m
          · have hbb : Equiv.swap m k b = b :=
              Equiv.swap_apply_of_ne_of_ne (by omega) (by omega)
            rw [hbb]
            exact ihm a b ham hab hb
          · obtain ⟨h5, h6⟩ := htarget b (by omega) hb
            exact ihm a _ ham (by omega) h6
        · have ham2 : a = m := by omega
          rw [ham2, Equiv.swap_apply_left]
          obtain ⟨h5, h6⟩ := htarget b (by omega) hb
          exact hk3 _ h5 h6
      · have hv : ∀ c, (sortStep n (sortPassAux n st m) m).1 c = u c := by
          intro c
          unfold sortStep
          rw [← hu, ← hk, if_neg hswap]
        rw [hv a, hv b]
        by_cases ham : a < m
        · exact ihm a b ham hab hb
        · have ham2 : a = m := by omega
          rw [ham2]
          have hkm : k = m := by omega
          have := hk3 b (by omega) hb
          rw [hkm] at this
          exact this

/-- The selection sort applies one global permutation of the indices to the
eigenvalue vector and to the eigenvector columns simultaneously. -/
theorem sortPassAux_perm {α β : Type} [LinearOrder α] (n : ℕ)
    (st : (ℕ → α) × (ℕ → ℕ → β)) (m : ℕ) :
    ∃ σ : Equiv.Perm ℕ,
      (∀ c, (sortPassAux n st m).1 c = st.1 (σ c)) ∧
      (∀ r c, (sortPassAux n st m).2 r c = st.2 r (σ c)) := by
  induction m with
  | zero => exact ⟨Equiv.refl ℕ, fun c => rfl, fun r c => rfl⟩
  | succ m ih =>
      obtain ⟨σ, h1, h2⟩ := ih
      rw [sortPassAux_succ]
      set prev := sortPassAux n st m with hprev
      unfold sortStep
      by_cases hswap : m < minIdxFrom prev.1 m n
      · rw [if_pos hswap]
        refine ⟨(Equiv.swap m (minIdxFrom prev.1 m n)).trans σ, ?_, ?_⟩
        · intro c
          exact h1 _
        · intro r c
          exact h2 _ _
      · rw [if_neg hswap]
        exact ⟨σ, h1, h2⟩

/-- The eigenvalue component of the selection sort does not depend on the
eigenvector component. -/
theorem sortPassAux_fst_congr {α β : Type} [LinearOrder α] (n : ℕ)
    (m : ℕ) (st st' : (ℕ → α) × (ℕ → ℕ → β)) (h : st.1 = st'.1) :
    (sortPassAux n st m).1 = (sortPassAux n st' m).1 := by
  induction m with
  | zero => exact h
  | succ m ih =>
      rw [sortPassAux_succ, sortPassAux_succ]
      unfold sortStep
      rw [ih]
      by_cases hswap : m < minIdxFrom (sortPassAux n st' m).1 m n
      · rw [if_pos hswap, if_pos hswap]
      · rw [if_neg hswap, if_neg hswap]
        exact ih

/-- C1: after `compute` on a matrix of size `n ≥ 1`, the eigenvalue vector is
sorted ascending, and the sorting pass preserves the pairing: one permutation
`σ` simultaneously pulls the eigenvalues and the eigenvector columns from the
pre-sort state, so eigenvalue `i` stays paired with eigenvector column `i`. -/
theorem C1_eigenvalues_sorted_and_paired (n : ℕ) (hn : 1 ≤ n)
    (A : ℕ → ℕ → ℝ) (flag : Bool) (d0 e0 : ℕ → ℝ) (q0 : ℕ → ℕ → ℝ)
    (fuel : ℕ) :
    (∀ i j, i ≤ j → j < n →
      (SelfAdjointEigenSolver_compute n A flag d0 e0 q0 fuel).1 i ≤
        (SelfAdjointEigenSolver_compute n A flag d0 e0 q0 fuel).1 j) ∧
    ∃ σ : Equiv.Perm ℕ,
      (∀ i, (SelfAdjointEigenSolver_compute n A flag d0 e0 q0 fuel).1 i
          = (computePreSort n A flag d0 e0 q0 fuel).1 (σ i)) ∧
      (∀ r c, (SelfAdjointEigenSolver_compute n A flag d0 e0 q0 fuel).2 r c
          = (computePreSort n A flag d0 e0 q0 fuel).2 r (σ c)) := by
  have _ := hn
  constructor
  · intro i j hij hj
    unfold SelfAdjointEigenSolver_compute sortPass
    by_cases hi : i < n - 1
    · exact sortPassAux_inv n _ (n - 1) (by omega) i j hi hij hj
    · have : i = j := by omega
      rw [this]
  · obtain ⟨σ, h1, h2⟩ :=
      sortPassAux_perm n (computePreSort n A flag d0 e0 q0 fuel) (n - 1)
    exact ⟨σ, h1, h2⟩

/-- Witness for C1 at `n = 2` with zero tridiagonal data and no fuel. -/
theorem C1_eigenvalues_sorted_and_paired_witness :
    1 ≤ 2 ∧
    ((∀ i j, i ≤ j → j < 2 →
      (SelfAdjointEigenSolver_compute 2 (fun _ _ => 0) true zeroV zeroV
          (fun _ _ => 0) 0).1 i ≤
        (SelfAdjointEigenSolver_compute 2 (fun _ _ => 0) true zeroV zeroV
          (fun _ _ => 0) 0).1 j) ∧
    ∃ σ : Equiv.Perm ℕ,
      (∀ i, (SelfAdjointEigenSolver_compute 2 (fun _ _ => 0) true zeroV zeroV
          (fun _ _ => 0) 0).1 i
          = (computePreSort 2 (fun _ _ => 0) true zeroV zeroV (fun _ _ => 0) 0).1 (σ i)) ∧
      (∀ r c, (SelfAdjointEigenSolver_compute 2 (fun _ _ => 0) true zeroV zeroV
          (fun _ _ => 0) 0).2 r c
          = (computePreSort 2 (fun _ _ => 0) true zeroV zeroV (fun _ _ => 0) 0).2 r (σ c))) :=
  ⟨by norm_num,
    C1_eigenvalues_sorted_and_paired 2 (by norm_num) (fun _ _ => 0) true zeroV
      zeroV (fun _ _ => 0) 0⟩

theorem qrInner_congr (start endI k : ℕ) (st st' : QRState)
    (hd : st.d = st'.d) (he : st.e = st'.e) (hx : st.x = st'.x)
    (hz : st.z = st'.z) :
    (qrInner start endI k st).d = (qrInner start endI k st').d ∧
    (qrInner start endI k st).e = (qrInner start endI k st').e ∧
    (qrInner start endI k st).x = (qrInner start endI k st').x ∧
    (qrInner start endI k st).z = (qrInner start endI k st').z := by
  unfold qrInner
  rw [hd, he, hx, hz]
  exact ⟨rfl, rfl, rfl, rfl⟩

theorem qrFold_congr (start endI : ℕ) (m : ℕ) :
    ∀ (st st' : QRState), st.d = st'.d → st.e = st'.e → st.x = st'.x →
      st.z = st'.z →
      (qrFold start endI m st).d = (qrFold start endI m st').d ∧
      (qrFold start endI m st).e = (qrFold start endI m st').e ∧
      (qrFold start endI m st).x = (qrFold start endI m st').x ∧
      (qrFold start endI m st).z = (qrFold start endI m st').z := by
  induction m with
  | zero => intro st st' hd he hx hz; exact ⟨hd, he, hx, hz⟩
  | succ m ih =>
      intro st st' hd he hx hz
      obtain ⟨hd2, he2, hx2, hz2⟩ := ih st st' hd he hx hz
      exact qrInner_congr start endI (start + m) _ _ hd2 he2 hx2 hz2

theorem qr_step_proj_congr (d e : ℕ → ℝ) (start endI : ℕ)
    (q q' : Option (ℕ → ℕ → ℝ)) (n : ℕ) :
    (ei_tridiagonal_qr_step d e start endI q n).d
      = (ei_tridiagonal_qr_step d e start endI q' n).d ∧
    (ei_tridiagonal_qr_step d e start endI q n).e
      = (ei_tridiagonal_qr_step d e start endI q' n).e := by
  unfold ei_tridiagonal_qr_step
  obtain ⟨h1, h2, _, _⟩ := qrFold_congr start endI (endI - start)
    ⟨d, e, d start - (d endI - e (endI - 1) ^ 2 /
      ((d (endI - 1) - d endI) * (1 / 2) +
        (if 0 < (d (endI - 1) - d endI) * (1 / 2) then 1 else -1) *
          Real.sqrt (((d (endI - 1) - d endI) * (1 / 2)) ^ 2 + e (endI - 1) ^ 2))),
      e start, q⟩
    ⟨d, e, d start - (d endI - e (endI - 1) ^ 2 /
      ((d (endI - 1) - d endI) * (1 / 2) +
        (if 0 < (d (endI - 1) - d endI) * (1 / 2) then 1 else -1) *
          Real.sqrt (((d (endI - 1) - d endI) * (1 / 2)) ^ 2 + e (endI - 1) ^ 2))),
      e start, q'⟩
    rfl rfl rfl rfl
  exact ⟨h1, h2⟩

theorem deflBody_congr (st st' : DeflState) (hd : st.d = st'.d)
    (he : st.e = st'.e) (hs : st.start = st'.start) (hE : st.endI = st'.endI)
    (hn : st.n = st'.n) :
    (deflBody st).d = (deflBody st').d ∧ (deflBody st).e = (deflBody st').e ∧
    (deflBody st).start = (deflBody st').start ∧
    (deflBody st).endI = (deflBody st').endI ∧
    (deflBody st).n = (deflBody st').n := by
  unfold deflBody
  rw [hd, he, hs, hE, hn]
  by_cases h0 : findEnd (deflZero st'.d st'.start st'.endI st'.e) st'.endI = 0
  · rw [if_pos h0, if_pos h0]
    exact ⟨rfl, rfl, rfl, rfl, rfl⟩
  · rw [if_neg h0, if_neg h0]
    obtain ⟨h1, h2⟩ := qr_step_proj_congr st'.d
      (deflZero st'.d st'.start st'.endI st'.e)
      (findStart (deflZero st'.d st'.start st'.endI st'.e)
        (findEnd (deflZero st'.d st'.start st'.endI st'.e) st'.endI - 1))
      (findEnd (deflZero st'.d st'.start st'.endI st'.e) st'.endI)
      st.q st'.q st'.n
    exact ⟨h1, h2, rfl, rfl, rfl⟩

theorem deflLoop_congr (f : ℕ) :
    ∀ (st st' : DeflState), st.d = st'.d → st.e = st'.e →
      st.start = st'.start → st.endI = st'.endI → st.n = st'.n →
      (deflLoop f st).d = (deflLoop f st').d ∧
      (deflLoop f st).e = (deflLoop f st').e := by
  induction f with
  | zero => intro st st' hd he _ _ _; exact ⟨hd, he⟩
  | succ f ih =>
      intro st st' hd he hs hE hn
      unfold deflLoop
      rw [hE]
      by_cases h0 : st'.endI = 0
      · rw [if_pos h0, if_pos h0]
        exact ⟨hd, he⟩
      · rw [if_neg h0, if_neg h0]
        obtain ⟨h1, h2, h3, h4, h5⟩ := deflBody_congr st st' hd he hs hE hn
        exact ih _ _ h1 h2 h3 h4 h5

/-- C10: `ei_tridiagonal_qr_step` leaves `diag` and `subdiag` in the same
final state whether `matrixQ` is a null pointer or an actual matrix (the
rotation parameters never read `matrixQ`); consequently, given the same
tridiagonalization outputs `d0`, `e0` for both flag values, the eigenvalues
produced by `SelfAdjointEigenSolver::compute` do not depend on the
`computeEigenvectors` flag. -/
theorem C10_eigenvalues_independent_of_flag :
    (∀ (d e : ℕ → ℝ) (start endI : ℕ) (q0 : ℕ → ℕ → ℝ) (n : ℕ),
      (ei_tridiagonal_qr_step d e start endI (some q0) n).d
        = (ei_tridiagonal_qr_step d e start endI none n).d ∧
      (ei_tridiagonal_qr_step d e start endI (some q0) n).e
        = (ei_tridiagonal_qr_step d e start endI none n).e) ∧
    (∀ (n : ℕ) (A : ℕ → ℕ → ℝ) (d0 e0 : ℕ → ℝ) (q0 : ℕ → ℕ → ℝ) (fuel : ℕ),
      (SelfAdjointEigenSolver_compute n A true d0 e0 q0 fuel).1
        = (SelfAdjointEigenSolver_compute n A false d0 e0 q0 fuel).1) := by
  constructor
  · intro d e start endI q0 n
    exact qr_step_proj_congr d e start endI (some q0) none n
  · intro n A d0 e0 q0 fuel
    have hpre : (computePreSort n A true d0 e0 q0 fuel).1
        = (computePreSort n A false d0 e0 q0 fuel).1 := by
      unfold computePreSort
      by_cases h1 : n = 1
      · rw [if_pos h1, if_pos h1]
      · rw [if_neg h1, if_neg h1]
        obtain ⟨hd, _⟩ := deflLoop_congr fuel
          ⟨d0, e0, 0, n - 1, some q0, n⟩ ⟨d0, e0, 0, n - 1, none, n⟩
          rfl rfl rfl rfl rfl
        exact hd
    unfold SelfAdjointEigenSolver_compute sortPass
    exact sortPassAux_fst_congr n (n - 1) _ _ hpre

/-! ### C2: the trust-region constraint of `ei_dogleg` -/

theorem stableNorm_nonneg (n : ℕ) (v : ℕ → ℝ) : 0 ≤ stableNorm n v :=
  Real.sqrt_nonneg _

theorem stableNorm_sq (n : ℕ) (v : ℕ → ℝ) :
    stableNorm n v ^ 2 = ∑ i ∈ range n, v i ^ 2 :=
  Real.sq_sqrt (by positivity)

theorem stableNorm_congr (n : ℕ) (v w : ℕ → ℝ) (h : ∀ j, j < n → v j = w j) :
    stableNorm n v = stableNorm n w := by
  unfold stableNorm
  congr 1
  exact Finset.sum_congr rfl fun j hj => by rw [h j (Finset.mem_range.mp hj)]

theorem stableNorm_smul (n : ℕ) (v : ℕ → ℝ) (c : ℝ) :
    stableNorm n (fun j => c * v j) = |c| * stableNorm n v := by
  unfold stableNorm
  rw [← Real.sqrt_sq_eq_abs, ← Real.sqrt_mul (sq_nonneg c), Finset.mul_sum]
  congr 1
  exact Finset.sum_congr rfl fun j _ => by ring

/-- Exchange of a triangular double sum: summing rows of the upper triangle
equals summing its columns. -/
theorem triangle_swap (n : ℕ) (F : ℕ → ℕ → ℝ) :
    ∑ j ∈ range n, ∑ i ∈ Ico j n, F j i
      = ∑ i ∈ range n, ∑ j ∈ range (i + 1), F j i := by
  induction n with
  | zero => simp
  | succ n ih =>
      have hL : ∀ j ∈ range (n + 1), ∑ i ∈ Ico j (n + 1), F j i
          = (∑ i ∈ Ico j n, F j i) + F j n := fun j hj =>
        Finset.sum_Ico_succ_top (Nat.lt_succ_iff.mp (Finset.mem_range.mp hj)) _
      rw [Finset.sum_congr rfl hL, Finset.sum_add_distrib]
      rw [Finset.sum_range_succ (fun j => ∑ i ∈ Ico j n, F j i) n]
      rw [show Ico n n = (∅ : Finset ℕ) from Finset.Ico_self n]
      rw [Finset.sum_empty, add_zero, ih]
      rw [Finset.sum_range_succ (fun i => ∑ j ∈ range (i + 1), F j i) n]

/-- The back-substitution loop writes index `n - 1 - m` at iteration `m`, so
entries at or above `n - k` are stable from iteration `k` on. -/
theorem gnLoop_stable (r qtb : ℕ → ℝ) (n : ℕ) (x0 : ℕ → ℝ) :
    ∀ m, m ≤ n → ∀ k, k ≤ m → ∀ j, n - k ≤ j →
      gnLoop r qtb n m x0 j = gnLoop r qtb n k x0 j := by
  intro m
  induction m with
  | zero => intro _ k hk j _; interval_cases k; rfl
  | succ m ih =>
      intro hm k hk j hj
      by_cases hkm : k = m + 1
      · rw [hkm]
      · have hk2 : k ≤ m := by omega
        have hwrite : n - 1 - m ≠ j := by omega
        show gnStep r qtb n (n - 1 - m) (gnLoop r qtb n m x0) j = _
        unfold gnStep
        rw [Function.update_noteq (fun h => hwrite h.symm)]
        exact ih (by omega) k hk2 j (by omega)

/-- Row `j` of the final Gauss-Newton vector satisfies its back-substitution
equation in terms of the final entries above it. -/
theorem gnSolve_spec (r qtb : ℕ → ℝ) (n : ℕ) (x0 : ℕ → ℝ) (j : ℕ)
    (hj : j < n) :
    gnSolve r qtb n x0 j =
      (qtb j - ∑ i ∈ Ico (j + 1) n, r (rIdx n j i) * gnSolve r qtb n x0 i) /
        gnDiv r n j := by
  have h1 : gnSolve r qtb n x0 j = gnLoop r qtb n (n - j) x0 j := by
    unfold gnSolve
    exact gnLoop_stable r qtb n x0 n (le_refl n) (n - j) (by omega) j (by omega)
  have h2 : n - j = (n - j - 1) + 1 := by omega
  have h3 : n - 1 - (n - j - 1) = j := by omega
  rw [h1, h2]
  show gnStep r qtb n (n - 1 - (n - j - 1)) (gnLoop r qtb n (n - j - 1) x0) j = _
  rw [h3]
  unfold gnStep
  rw [Function.update_same]
  congr 2
  refine Finset.sum_congr rfl fun i hi => ?_
  have hi2 := Finset.mem_Ico.mp hi
  congr 1
  exact (gnLoop_stable r qtb n x0 n (le_refl n) (n - j - 1) (by omega) i
    (by omega)).symm

/-- With a nonzero diagonal the epsilon-substitution never fires, and the
back-substituted vector solves `R x = qtb` row by row. -/
theorem gn_row_eq (r qtb : ℕ → ℝ) (n : ℕ) (x0 : ℕ → ℝ)
    (hrdiag : ∀ j, j < n → r (rIdx n j j) ≠ 0) (j : ℕ) (hj : j < n) :
    ∑ i ∈ Ico j n, r (rIdx n j i) * gnSolve r qtb n x0 i = qtb j := by
  have hdiv : gnDiv r n j = r (rIdx n j j) := by
    unfold gnDiv
    rw [if_neg (hrdiag j hj)]
  have hx := gnSolve_spec r qtb n x0 j hj
  rw [hdiv] at hx
  rw [Finset.sum_eq_sum_Ico_succ_bot hj, hx]
  rw [mul_div_assoc', mul_comm, mul_div_assoc, div_self (hrdiag j hj), mul_one]
  ring

/-- The column sums of the packed `R` against `qtb` recover the unscaled
gradient `diag i * dlGrad i`. -/
theorem grad_unscaled (r diag qtb : ℕ → ℝ) (n : ℕ) (i : ℕ) (hi : i < n)
    (hdiag : ∀ j, j < n → diag j ≠ 0) :
    ∑ j ∈ range (i + 1), r (rIdx n j i) * qtb j
      = dlGrad r diag qtb n i * diag i := by
  unfold dlGrad
  rw [div_mul_cancel₀ _ (hdiag i hi)]

/-- `⟨∇, D·x_gn⟩ = ‖qtb‖²` when the back-substitution was exact: the key
adjointness identity behind the `bnorm` computation of the source. -/
theorem grad_dot_x (r diag qtb : ℕ → ℝ) (n : ℕ) (x0 : ℕ → ℝ)
    (hdiag : ∀ j, j < n → diag j ≠ 0)
    (hrdiag : ∀ j, j < n → r (rIdx n j j) ≠ 0) :
    ∑ j ∈ range n, dlGrad r diag qtb n j * (diag j * gnSolve r qtb n x0 j)
      = dlBnorm qtb n ^ 2 := by
  have h1 : ∀ j ∈ range n,
      dlGrad r diag qtb n j * (diag j * gnSolve r qtb n x0 j)
        = ∑ j' ∈ range (j + 1),
            r (rIdx n j' j) * qtb j' * gnSolve r qtb n x0 j := by
    intro j hj
    rw [← Finset.sum_mul, grad_unscaled r diag qtb n j (Finset.mem_range.mp hj) hdiag]
    ring
  rw [Finset.sum_congr rfl h1]
  have h2 := (triangle_swap n
    (fun j' j => r (rIdx n j' j) * qtb j' * gnSolve r qtb n x0 j)).symm
  rw [h2]
  have h3 : ∀ j' ∈ range n,
      ∑ j ∈ Ico j' n, r (rIdx n j' j) * qtb j' * gnSolve r qtb n x0 j
        = qtb j' * qtb j' := by
    intro j' hj'
    have : ∑ j ∈ Ico j' n, r (rIdx n j' j) * qtb j' * gnSolve r qtb n x0 j
        = qtb j' * ∑ j ∈ Ico j' n, r (rIdx n j' j) * gnSolve r qtb n x0 j := by
      rw [Finset.mul_sum]
      exact Finset.sum_congr rfl fun j _ => by ring
    rw [this, gn_row_eq r qtb n x0 hrdiag j' (Finset.mem_range.mp hj')]
  rw [Finset.sum_congr rfl h3, dlBnorm, stableNorm_sq]
  exact Finset.sum_congr rfl fun j _ => (sq (qtb j)).symm

/-- `⟨qtb, R·(D⁻¹ĝ)⟩ = gnorm`: the inner product of `qtb` with `wa2`. -/
theorem wa2_dot_qtb (r diag qtb : ℕ → ℝ) (n : ℕ)
    (hdiag : ∀ j, j < n → diag j ≠ 0) (hgn : dlGnorm r diag qtb n ≠ 0) :
    ∑ j ∈ range n, qtb j * dlWa2 r diag qtb n j = dlGnorm r diag qtb n := by
  unfold dlWa2
  have h1 : ∀ j ∈ range n,
      qtb j * ∑ i ∈ Ico j n, r (rIdx n j i) * dlWa1n r diag qtb n i
        = ∑ i ∈ Ico j n, qtb j * (r (rIdx n j i) * dlWa1n r diag qtb n i) := by
    intro j _
    rw [Finset.mul_sum]
  rw [Finset.sum_congr rfl h1,
    triangle_swap n (fun j i => qtb j * (r (rIdx n j i) * dlWa1n r diag qtb n i))]
  have h2 : ∀ i ∈ range n,
      ∑ j ∈ range (i + 1), qtb j * (r (rIdx n j i) * dlWa1n r diag qtb n i)
        = dlGrad r diag qtb n i ^ 2 / dlGnorm r diag qtb n := by
    intro i hi
    have hi' := Finset.mem_range.mp hi
    have : ∑ j ∈ range (i + 1), qtb j * (r (rIdx n j i) * dlWa1n r diag qtb n i)
        = dlWa1n r diag qtb n i * ∑ j ∈ range (i + 1), r (rIdx n j i) * qtb j := by
      rw [Finset.mul_sum]
      exact Finset.sum_congr rfl fun j _ => by ring
    rw [this, grad_unscaled r diag qtb n i hi' hdiag]
    unfold dlWa1n
    field_simp [hdiag i hi', hgn]
    ring
  rw [Finset.sum_congr rfl h2, ← Finset.sum_div]
  have h3 : ∑ i ∈ range n, dlGrad r diag qtb n i ^ 2
      = dlGnorm r diag qtb n ^ 2 := (stableNorm_sq n _).symm
  rw [h3, sq, mul_div_assoc, div_self hgn, mul_one]

/-- The closed-form `alpha` of the interpolation branch places the dogleg
point exactly on the trust-region sphere: in normalized variables
(`u = delta/qnorm`, `v = sgnorm/delta`, `w = t1`, `s` the square root of the
discriminant), the quadratic form of the final convex combination evaluates
to 1. -/
theorem dogleg_core (u v w s : ℝ) (hu0 : 0 < u) (hv1 : v < 1) (hs0 : 0 < s)
    (hwv : u * v ^ 2 ≤ w)
    (hs2 : s ^ 2 = (w - u) ^ 2 + (1 - u ^ 2) * (1 - v ^ 2)) :
    (1 - u * (1 - v ^ 2) / (w - u * v ^ 2 + s)) ^ 2 * v ^ 2 +
      2 * (u * (1 - v ^ 2) / (w - u * v ^ 2 + s)) *
        (1 - u * (1 - v ^ 2) / (w - u * v ^ 2 + s)) * (w / u) +
      (u * (1 - v ^ 2) / (w - u * v ^ 2 + s)) ^ 2 / u ^ 2 = 1 := by
  have hT : 0 < w - u * v ^ 2 + s := by nlinarith
  have hTne : w - u * v ^ 2 + s ≠ 0 := ne_of_gt hT
  have hune : u ≠ 0 := ne_of_gt hu0
  have hX0 : (w - u + s) ^ 2 - 2 * (w - u) * (w - u + s)
      - (1 - u ^ 2) * (1 - v ^ 2) = 0 := by linear_combination hs2
  have hkey : (w - u + s) ^ 2 * v ^ 2 + 2 * (1 - v ^ 2) * (w - u + s) * w +
      (1 - v ^ 2) ^ 2 = (w - u * v ^ 2 + s) ^ 2 := by
    linear_combination (-(1 - v ^ 2)) * hX0
  have h1ma : 1 - u * (1 - v ^ 2) / (w - u * v ^ 2 + s)
      = (w - u + s) / (w - u * v ^ 2 + s) := by
    field_simp
    ring
  rw [h1ma]
  have e1 : ((w - u + s) / (w - u * v ^ 2 + s)) ^ 2 * v ^ 2
      = (w - u + s) ^ 2 * v ^ 2 / (w - u * v ^ 2 + s) ^ 2 := by
    rw [div_pow]
    ring
  have e2 : 2 * (u * (1 - v ^ 2) / (w - u * v ^ 2 + s)) *
      ((w - u + s) / (w - u * v ^ 2 + s)) * (w / u)
      = 2 * (1 - v ^ 2) * (w - u + s) * w / (w - u * v ^ 2 + s) ^ 2 := by
    field_simp
    ring
  have e3 : (u * (1 - v ^ 2) / (w - u * v ^ 2 + s)) ^ 2 / u ^ 2
      = (1 - v ^ 2) ^ 2 / (w - u * v ^ 2 + s) ^ 2 := by
    field_simp
    ring
  rw [e1, e2, e3, div_add_div_same, div_add_div_same, hkey]
  exact div_self (pow_ne_zero 2 hTne)

theorem sum_sq_expand (s : Finset ℕ) (A B : ℝ) (p q : ℕ → ℝ) :
    ∑ j ∈ s, (A * p j + B * q j) ^ 2
      = A ^ 2 * ∑ j ∈ s, p j ^ 2 + 2 * A * B * ∑ j ∈ s, p j * q j +
        B ^ 2 * ∑ j ∈ s, q j ^ 2 := by
  rw [Finset.mul_sum, Finset.mul_sum, Finset.mul_sum, ← Finset.sum_add_distrib,
    ← Finset.sum_add_distrib]
  exact Finset.sum_congr rfl fun j _ => by ring

/-- `dogleg_core` in the source's own quantities: the quadratic form of the
final convex combination, with the source's closed-form `alpha`, equals
`delta ^ 2`. -/
theorem dogleg_core_scaled (sg qn gn bn delta s : ℝ) (hsg : 0 < sg)
    (hdelta : 0 < delta) (hslt : sg < delta) (hqgt : delta < qn)
    (hgn : 0 < gn) (hble : sg * gn ≤ bn ^ 2) (hs0 : 0 < s)
    (hs2 : s ^ 2 = (bn / gn * (bn / qn) * (sg / delta) - delta / qn) ^ 2 +
      (1 - (delta / qn) ^ 2) * (1 - (sg / delta) ^ 2)) :
    ((1 - delta / qn * (1 - (sg / delta) ^ 2) /
        (bn / gn * (bn / qn) * (sg / delta) -
          delta / qn * (sg / delta) ^ 2 + s)) * sg) ^ 2 +
      2 * ((1 - delta / qn * (1 - (sg / delta) ^ 2) /
        (bn / gn * (bn / qn) * (sg / delta) -
          delta / qn * (sg / delta) ^ 2 + s)) * sg) *
        (delta / qn * (1 - (sg / delta) ^ 2) /
          (bn / gn * (bn / qn) * (sg / delta) -
            delta / qn * (sg / delta) ^ 2 + s)) * (bn ^ 2 / gn) +
      (delta / qn * (1 - (sg / delta) ^ 2) /
        (bn / gn * (bn / qn) * (sg / delta) -
          delta / qn * (sg / delta) ^ 2 + s)) ^ 2 * qn ^ 2
      = delta ^ 2 := by
  have hqn : 0 < qn := lt_trans hdelta hqgt
  have hu0 : 0 < delta / qn := div_pos hdelta hqn
  have hv1 : sg / delta < 1 := (div_lt_one hdelta).mpr hslt
  have hwv : delta / qn * (sg / delta) ^ 2 ≤ bn / gn * (bn / qn) * (sg / delta) := by
    rw [div_pow, div_mul_div_comm]
    have h1 : delta * (sg ^ 2) / (qn * delta ^ 2) = sg ^ 2 / (qn * delta) := by
      rw [div_eq_div_iff (by positivity) (by positivity)]
      ring
    have h2 : bn / gn * (bn / qn) * (sg / delta) = bn ^ 2 * sg / (gn * qn * delta) := by
      rw [div_mul_div_comm, div_mul_div_comm]
      ring_nf
    rw [h1, h2, div_le_div_iff (by positivity) (by positivity)]
    nlinarith [mul_le_mul_of_nonneg_right hble
      (show (0 : ℝ) ≤ sg * (qn * delta) by positivity)]
  have hcore := dogleg_core (delta / qn) (sg / delta)
    (bn / gn * (bn / qn) * (sg / delta)) s hu0 hv1 hs0 hwv hs2
  set T := bn / gn * (bn / qn) * (sg / delta) - delta / qn * (sg / delta) ^ 2 + s
    with hTdef
  set α := delta / qn * (1 - (sg / delta) ^ 2) / T with hαdef
  calc ((1 - α) * sg) ^ 2 + 2 * ((1 - α) * sg) * α * (bn ^ 2 / gn) +
        α ^ 2 * qn ^ 2
      = delta ^ 2 * ((1 - α) ^ 2 * (sg / delta) ^ 2 +
          2 * α * (1 - α) * (bn / gn * (bn / qn) * (sg / delta) / (delta / qn)) +
          α ^ 2 / (delta / qn) ^ 2) := by
        field_simp
        ring
    _ = delta ^ 2 * 1 := by rw [hcore]
    _ = delta ^ 2 := by ring

set_option maxHeartbeats 2000000 in
/-- C2 (amended): when every diagonal entry of the packed factor `R` is
nonzero (so the Gauss-Newton back-substitution is exact and the
epsilon-substitution never fires), the step left in `x` by `ei_dogleg`
satisfies the trust-region constraint `‖diag · x‖ ≤ delta`. -/
theorem C2_amended_trust_region (r diag qtb : ℕ → ℝ) (delta : ℝ) (n : ℕ)
    (x0 : ℕ → ℝ) (hdelta : 0 < delta) (hdiag : ∀ j, j < n → 0 < diag j)
    (hrdiag : ∀ j, j < n → r (rIdx n j j) ≠ 0) :
    stableNorm n (fun j => diag j * ei_dogleg r diag qtb delta n x0 j) ≤ delta := by
  have hdiagne : ∀ j, j < n → diag j ≠ 0 := fun j hj => ne_of_gt (hdiag j hj)
  by_cases hq : dlQnorm r diag qtb n x0 ≤ delta
  · have hout : ei_dogleg r diag qtb delta n x0 = gnSolve r qtb n x0 := by
      unfold ei_dogleg
      rw [if_pos hq]
    rw [hout]
    exact hq
  · have hqgt : delta < dlQnorm r diag qtb n x0 := not_le.mp hq
    have hqn0 : 0 < dlQnorm r diag qtb n x0 := lt_trans hdelta hqgt
    by_cases hg : dlGnorm r diag qtb n = 0
    · -- zero-gradient branch: the step is (delta/qnorm) times the GN step
      have hout : ei_dogleg r diag qtb delta n x0 = fun j =>
          (1 - delta / dlQnorm r diag qtb n x0) * min 0 delta *
              dlGrad r diag qtb n j +
            delta / dlQnorm r diag qtb n x0 * gnSolve r qtb n x0 j := by
        unfold ei_dogleg
        rw [if_neg hq, if_pos hg]
      rw [hout]
      have hmin : min (0 : ℝ) delta = 0 := min_eq_left (le_of_lt hdelta)
      have hcg : stableNorm n (fun j => diag j *
          ((1 - delta / dlQnorm r diag qtb n x0) * min 0 delta *
              dlGrad r diag qtb n j +
            delta / dlQnorm r diag qtb n x0 * gnSolve r qtb n x0 j))
          = stableNorm n (fun j => delta / dlQnorm r diag qtb n x0 *
              (diag j * gnSolve r qtb n x0 j)) := by
        refine stableNorm_congr n _ _ fun j hj => ?_
        rw [hmin]
        ring
      rw [hcg, stableNorm_smul, abs_of_nonneg (le_of_lt (div_pos hdelta hqn0))]
      rw [show stableNorm n (fun j => diag j * gnSolve r qtb n x0 j)
          = dlQnorm r diag qtb n x0 from rfl]
      rw [div_mul_cancel₀ _ (ne_of_gt hqn0)]
    · have hgn0 : 0 < dlGnorm r diag qtb n :=
        lt_of_le_of_ne (stableNorm_nonneg n _) (Ne.symm hg)
      have hDwa1n : ∀ j, j < n → diag j * dlWa1n r diag qtb n j
          = dlGrad r diag qtb n j / dlGnorm r diag qtb n := by
        intro j hj
        unfold dlWa1n
        field_simp [hdiagne j hj]
        ring
      have hgradnorm : stableNorm n
          (fun j => dlGrad r diag qtb n j / dlGnorm r diag qtb n) = 1 := by
        have hcg2 : stableNorm n
            (fun j => dlGrad r diag qtb n j / dlGnorm r diag qtb n)
            = stableNorm n (fun j => (1 / dlGnorm r diag qtb n) *
                dlGrad r diag qtb n j) := by
          refine stableNorm_congr n _ _ fun j hj => ?_
          ring
        rw [hcg2, stableNorm_smul, abs_of_nonneg (by positivity)]
        rw [show stableNorm n (fun j => dlGrad r diag qtb n j)
            = dlGnorm r diag qtb n from rfl]
        field_simp
      by_cases hs : delta ≤ dlSgnorm r diag qtb n
      · -- steepest-descent point outside: the step is delta times D⁻¹ĝ
        have hout : ei_dogleg r diag qtb delta n x0 = fun j =>
            (1 - 0) * min (dlSgnorm r diag qtb n) delta * dlWa1n r diag qtb n j +
              0 * gnSolve r qtb n x0 j := by
          unfold ei_dogleg
          rw [if_neg hq, if_neg hg, if_pos hs]
        rw [hout]
        have hmin : min (dlSgnorm r diag qtb n) delta = delta := min_eq_right hs
        have hcg : stableNorm n (fun j => diag j *
            ((1 - 0) * min (dlSgnorm r diag qtb n) delta * dlWa1n r diag qtb n j +
              0 * gnSolve r qtb n x0 j))
            = stableNorm n (fun j => delta *
                (dlGrad r diag qtb n j / dlGnorm r diag qtb n)) := by
          refine stableNorm_congr n _ _ fun j hj => ?_
          rw [hmin]
          have h2 := hDwa1n j hj
          calc diag j * ((1 - 0) * delta * dlWa1n r diag qtb n j +
                0 * gnSolve r qtb n x0 j)
              = delta * (diag j * dlWa1n r diag qtb n j) := by ring
            _ = delta * (dlGrad r diag qtb n j / dlGnorm r diag qtb n) := by
                rw [h2]
        rw [hcg, stableNorm_smul, abs_of_nonneg hdelta.le, hgradnorm, mul_one]
      · -- the interpolation branch
        have hslt : dlSgnorm r diag qtb n < delta := not_le.mp hs
        have hqtb_sq : ∑ j ∈ range n, qtb j ^ 2 = dlBnorm qtb n ^ 2 :=
          (stableNorm_sq n qtb).symm
        have hwa2_sq : ∑ j ∈ range n, dlWa2 r diag qtb n j ^ 2
            = dlTemp r diag qtb n ^ 2 := (stableNorm_sq n _).symm
        have hdot := wa2_dot_qtb r diag qtb n hdiagne hg
        have hCS : dlGnorm r diag qtb n ^ 2
            ≤ dlBnorm qtb n ^ 2 * dlTemp r diag qtb n ^ 2 := by
          have h3 := Finset.sum_mul_sq_le_sq_mul_sq (range n) qtb
            (dlWa2 r diag qtb n)
          rw [hdot, hqtb_sq, hwa2_sq] at h3
          exact h3
        have htempw0 : 0 < dlTemp r diag qtb n := by
          have h0 : 0 ≤ dlTemp r diag qtb n := stableNorm_nonneg n _
          rcases h0.lt_or_eq with h | h
          · exact h
          · exfalso
            rw [← h] at hCS
            nlinarith
        have hsg0 : 0 < dlSgnorm r diag qtb n := by
          unfold dlSgnorm
          positivity
        have hsgle : dlSgnorm r diag qtb n * dlGnorm r diag qtb n
            ≤ dlBnorm qtb n ^ 2 := by
          have hsg_eq : dlSgnorm r diag qtb n *
              (dlTemp r diag qtb n * dlTemp r diag qtb n)
              = dlGnorm r diag qtb n := by
            unfold dlSgnorm
            field_simp
          nlinarith [hCS, hsg_eq, mul_pos htempw0 htempw0]
        have hout : ei_dogleg r diag qtb delta n x0 = fun j =>
            (1 - dlAlpha r diag qtb delta n x0) *
                min (dlSgnorm r diag qtb n) delta * dlWa1n r diag qtb n j +
              dlAlpha r diag qtb delta n x0 * gnSolve r qtb n x0 j := by
          unfold ei_dogleg
          rw [if_neg hq, if_neg hg, if_neg hs]
        rw [hout]
        have hmin : min (dlSgnorm r diag qtb n) delta = dlSgnorm r diag qtb n :=
          min_eq_left hslt.le
        -- the squared norm of the final step
        have hpt : ∀ j ∈ range n, (diag j *
            ((1 - dlAlpha r diag qtb delta n x0) *
                min (dlSgnorm r diag qtb n) delta * dlWa1n r diag qtb n j +
              dlAlpha r diag qtb delta n x0 * gnSolve r qtb n x0 j)) ^ 2
            = (((1 - dlAlpha r diag qtb delta n x0) * dlSgnorm r diag qtb n) *
                (dlGrad r diag qtb n j / dlGnorm r diag qtb n) +
              dlAlpha r diag qtb delta n x0 *
                (diag j * gnSolve r qtb n x0 j)) ^ 2 := by
          intro j hj
          have h2 := hDwa1n j (Finset.mem_range.mp hj)
          rw [hmin]
          have h3 : diag j * ((1 - dlAlpha r diag qtb delta n x0) *
              dlSgnorm r diag qtb n * dlWa1n r diag qtb n j +
              dlAlpha r diag qtb delta n x0 * gnSolve r qtb n x0 j)
              = ((1 - dlAlpha r diag qtb delta n x0) * dlSgnorm r diag qtb n) *
                  (diag j * dlWa1n r diag qtb n j) +
                dlAlpha r diag qtb delta n x0 *
                  (diag j * gnSolve r qtb n x0 j) := by ring
          rw [h3, h2]
        have hS1 : ∑ j ∈ range n,
            (dlGrad r diag qtb n j / dlGnorm r diag qtb n) ^ 2 = 1 := by
          have h4 : ∀ j ∈ range n,
              (dlGrad r diag qtb n j / dlGnorm r diag qtb n) ^ 2
              = dlGrad r diag qtb n j ^ 2 * (1 / dlGnorm r diag qtb n ^ 2) := by
            intro j _
            rw [div_pow]
            ring
          rw [Finset.sum_congr rfl h4, ← Finset.sum_mul]
          rw [show ∑ j ∈ range n, dlGrad r diag qtb n j ^ 2
              = dlGnorm r diag qtb n ^ 2 from (stableNorm_sq n _).symm]
          field_simp
        have hS2 : ∑ j ∈ range n,
            (dlGrad r diag qtb n j / dlGnorm r diag qtb n) *
              (diag j * gnSolve r qtb n x0 j)
            = dlBnorm qtb n ^ 2 / dlGnorm r diag qtb n := by
          have h4 : ∀ j ∈ range n,
              (dlGrad r diag qtb n j / dlGnorm r diag qtb n) *
                (diag j * gnSolve r qtb n x0 j)
              = dlGrad r diag qtb n j * (diag j * gnSolve r qtb n x0 j) *
                  (1 / dlGnorm r diag qtb n) := by
            intro j _
            ring
          rw [Finset.sum_congr rfl h4, ← Finset.sum_mul]
          rw [grad_dot_x r diag qtb n x0 hdiagne hrdiag]
          ring
        have hS3 : ∑ j ∈ range n, (diag j * gnSolve r qtb n x0 j) ^ 2
            = dlQnorm r diag qtb n x0 ^ 2 := (stableNorm_sq n _).symm
        have hnormsq : stableNorm n (fun j => diag j *
            ((1 - dlAlpha r diag qtb delta n x0) *
                min (dlSgnorm r diag qtb n) delta * dlWa1n r diag qtb n j +
              dlAlpha r diag qtb delta n x0 * gnSolve r qtb n x0 j)) ^ 2
            = ((1 - dlAlpha r diag qtb delta n x0) * dlSgnorm r diag qtb n) ^ 2 +
              2 * ((1 - dlAlpha r diag qtb delta n x0) * dlSgnorm r diag qtb n) *
                dlAlpha r diag qtb delta n x0 *
                (dlBnorm qtb n ^ 2 / dlGnorm r diag qtb n) +
              dlAlpha r diag qtb delta n x0 ^ 2 * dlQnorm r diag qtb n x0 ^ 2 := by
          rw [stableNorm_sq, Finset.sum_congr rfl hpt, sum_sq_expand, hS1, hS2, hS3]
          ring
        -- the discriminant under the square root is positive
        have hArg : 0 < (dlT1 r diag qtb delta n x0 -
            delta / dlQnorm r diag qtb n x0) ^ 2 +
            (1 - (delta / dlQnorm r diag qtb n x0) ^ 2) *
              (1 - (dlSgnorm r diag qtb n / delta) ^ 2) := by
          have hu1 : delta / dlQnorm r diag qtb n x0 < 1 :=
            (div_lt_one hqn0).mpr hqgt
          have hv1 : dlSgnorm r diag qtb n / delta < 1 :=
            (div_lt_one hdelta).mpr hslt
          have hu0 : 0 < delta / dlQnorm r diag qtb n x0 := div_pos hdelta hqn0
          have hv0 : 0 < dlSgnorm r diag qtb n / delta := div_pos hsg0 hdelta
          have hprod : 0 < (1 - (delta / dlQnorm r diag qtb n x0) ^ 2) *
              (1 - (dlSgnorm r diag qtb n / delta) ^ 2) :=
            mul_pos (by nlinarith) (by nlinarith)
          have hsqn := sq_nonneg (dlT1 r diag qtb delta n x0 -
            delta / dlQnorm r diag qtb n x0)
          linarith
        have hT1e : dlT1 r diag qtb delta n x0
            = dlBnorm qtb n / dlGnorm r diag qtb n *
              (dlBnorm qtb n / dlQnorm r diag qtb n x0) *
              (dlSgnorm r diag qtb n / delta) := rfl
        have hs2' : Real.sqrt ((dlT1 r diag qtb delta n x0 -
            delta / dlQnorm r diag qtb n x0) ^ 2 +
            (1 - (delta / dlQnorm r diag qtb n x0) ^ 2) *
              (1 - (dlSgnorm r diag qtb n / delta) ^ 2)) ^ 2
            = (dlBnorm qtb n / dlGnorm r diag qtb n *
              (dlBnorm qtb n / dlQnorm r diag qtb n x0) *
              (dlSgnorm r diag qtb n / delta) - delta / dlQnorm r diag qtb n x0) ^ 2 +
            (1 - (delta / dlQnorm r diag qtb n x0) ^ 2) *
              (1 - (dlSgnorm r diag qtb n / delta) ^ 2) := by
          rw [← hT1e]
          exact Real.sq_sqrt hArg.le
        have hsqeq := dogleg_core_scaled (dlSgnorm r diag qtb n)
          (dlQnorm r diag qtb n x0) (dlGnorm r diag qtb n) (dlBnorm qtb n)
          delta (Real.sqrt ((dlT1 r diag qtb delta n x0 -
            delta / dlQnorm r diag qtb n x0) ^ 2 +
            (1 - (delta / dlQnorm r diag qtb n x0) ^ 2) *
              (1 - (dlSgnorm r diag qtb n / delta) ^ 2)))
          hsg0 hdelta hslt hqgt hgn0 hsgle (Real.sqrt_pos.mpr hArg) hs2'
        rw [← hT1e] at hsqeq
        have hT2e : dlT2 r diag qtb delta n x0
            = dlT1 r diag qtb delta n x0 -
              delta / dlQnorm r diag qtb n x0 * (dlSgnorm r diag qtb n / delta) ^ 2 +
              Real.sqrt ((dlT1 r diag qtb delta n x0 -
                delta / dlQnorm r diag qtb n x0) ^ 2 +
                (1 - (delta / dlQnorm r diag qtb n x0) ^ 2) *
                  (1 - (dlSgnorm r diag qtb n / delta) ^ 2)) := rfl
        rw [← hT2e] at hsqeq
        have hAe : dlAlpha r diag qtb delta n x0
            = delta / dlQnorm r diag qtb n x0 *
              (1 - (dlSgnorm r diag qtb n / delta) ^ 2) /
              dlT2 r diag qtb delta n x0 := rfl
        rw [← hAe] at hsqeq
        have hfinal : stableNorm n (fun j => diag j *
            ((1 - dlAlpha r diag qtb delta n x0) *
                min (dlSgnorm r diag qtb n) delta * dlWa1n r diag qtb n j +
              dlAlpha r diag qtb delta n x0 * gnSolve r qtb n x0 j)) ^ 2
            = delta ^ 2 := hnormsq.trans hsqeq
        have hnn := stableNorm_nonneg n (fun j => diag j *
            ((1 - dlAlpha r diag qtb delta n x0) *
                min (dlSgnorm r diag qtb n) delta * dlWa1n r diag qtb n j +
              dlAlpha r diag qtb delta n x0 * gnSolve r qtb n x0 j))
        generalize hNdef : stableNorm n (fun j => diag j *
            ((1 - dlAlpha r diag qtb delta n x0) *
                min (dlSgnorm r diag qtb n) delta * dlWa1n r diag qtb n j +
              dlAlpha r diag qtb delta n x0 * gnSolve r qtb n x0 j)) = N
          at hfinal hnn ⊢
        have h2 : (N - delta) * (N + delta) = 0 := by linear_combination hfinal
        rcases mul_eq_zero.mp h2 with h3 | h3
        · linarith only [h3]
        · linarith only [h3, hnn, hdelta]

/-- Counterexample input for C2: packed `R = [[0,3],[·,4]]` (zero diagonal in
row 0), i.e. `r = [0,3,4]`. -/
noncomputable def rB : ℕ → ℝ := fun l => if l = 1 then 3 else if l = 2 then 4 else 0

/-- Counterexample scaling `diag = [20/7 · eps, 4]` (positive entries). -/
noncomputable def diagB : ℕ → ℝ := fun j => if j = 0 then 20 / 7 * epsmch else 4

/-- Counterexample right-hand side `qtb = [39/20, 4]`. -/
noncomputable def qtbB : ℕ → ℝ := fun j =>
  if j = 0 then 39 / 20 else if j = 1 then 4 else 0

theorem epsmch_ne : epsmch ≠ 0 := ne_of_gt epsmch_pos

theorem rB_x1 : gnSolve rB qtbB 2 zeroV 1 = 1 := by
  rw [gnSolve_spec rB qtbB 2 zeroV 1 (by norm_num)]
  have hdiv1 : gnDiv rB 2 1 = 4 := by
    have h2 : rIdx 2 1 1 = 2 := rfl
    unfold gnDiv
    rw [h2]
    norm_num [rB]
  rw [hdiv1, show Finset.Ico 2 2 = (∅ : Finset ℕ) from rfl]
  norm_num [qtbB]

theorem rB_x0 : gnSolve rB qtbB 2 zeroV 0 = -(21 / 20) / epsmch := by
  rw [gnSolve_spec rB qtbB 2 zeroV 0 (by norm_num)]
  have hdiv0 : gnDiv rB 2 0 = epsmch := by
    have h00 : rB (rIdx 2 0 0) = 0 := by
      norm_num [show rIdx 2 0 0 = 0 from rfl, rB]
    have hscan : scanMax rB 2 0 0 = 0 := by
      unfold scanMax
      rw [show List.range 1 = [0] from rfl]
      have hsi : scanIdx 2 0 0 = 0 := rfl
      simp [hsi, rB]
    simp only [gnDiv, h00, hscan]
    norm_num
  rw [hdiv0, show Finset.Ico 1 2 = ({1} : Finset ℕ) from rfl]
  rw [Finset.sum_singleton, show rIdx 2 0 1 = 1 from rfl, rB_x1]
  norm_num [rB, qtbB]

theorem dlQnorm_B : dlQnorm rB diagB qtbB 2 zeroV = 5 := by
  unfold dlQnorm stableNorm
  rw [Finset.sum_range_succ, Finset.sum_range_one]
  simp only []
  rw [rB_x0, rB_x1]
  have h0 : diagB 0 * (-(21 / 20) / epsmch) = -3 := by
    unfold diagB
    norm_num
    field_simp [epsmch_ne]
    ring
  have h1 : diagB 1 * 1 = 4 := by norm_num [diagB]
  rw [h0, h1]
  rw [show (-3 : ℝ) ^ 2 + 4 ^ 2 = 5 ^ 2 by norm_num]
  exact Real.sqrt_sq (by norm_num)

theorem dlGrad_B0 : dlGrad rB diagB qtbB 2 0 = 0 := by
  unfold dlGrad
  rw [Finset.sum_range_one, show rIdx 2 0 0 = 0 from rfl]
  norm_num [rB]

theorem dlGrad_B1 : dlGrad rB diagB qtbB 2 1 = 437 / 80 := by
  unfold dlGrad
  rw [Finset.sum_range_succ, Finset.sum_range_one]
  rw [show rIdx 2 0 1 = 1 from rfl, show rIdx 2 1 1 = 2 from rfl]
  norm_num [rB, qtbB, diagB]

theorem dlGnorm_B : dlGnorm rB diagB qtbB 2 = 437 / 80 := by
  unfold dlGnorm stableNorm
  rw [Finset.sum_range_succ, Finset.sum_range_one, dlGrad_B0, dlGrad_B1]
  rw [show (0 : ℝ) ^ 2 + (437 / 80) ^ 2 = (437 / 80) ^ 2 by norm_num]
  exact Real.sqrt_sq (by norm_num)

theorem dlWa1n_B0 : dlWa1n rB diagB qtbB 2 0 = 0 := by
  unfold dlWa1n
  rw [dlGrad_B0]
  norm_num

theorem dlWa1n_B1 : dlWa1n rB diagB qtbB 2 1 = 1 / 4 := by
  unfold dlWa1n
  rw [dlGrad_B1, dlGnorm_B]
  norm_num [diagB]

theorem dlTemp_B : dlTemp rB diagB qtbB 2 = 5 / 4 := by
  unfold dlTemp stableNorm
  rw [Finset.sum_range_succ, Finset.sum_range_one]
  have h0 : dlWa2 rB diagB qtbB 2 0 = 3 / 4 := by
    unfold dlWa2
    rw [show Finset.Ico 0 2 = ({0, 1} : Finset ℕ) from rfl]
    rw [Finset.sum_insert (by norm_num), Finset.sum_singleton]
    rw [show rIdx 2 0 0 = 0 from rfl, show rIdx 2 0 1 = 1 from rfl,
      dlWa1n_B0, dlWa1n_B1]
    norm_num [rB]
  have h1 : dlWa2 rB diagB qtbB 2 1 = 1 := by
    unfold dlWa2
    rw [show Finset.Ico 1 2 = ({1} : Finset ℕ) from rfl, Finset.sum_singleton]
    rw [show rIdx 2 1 1 = 2 from rfl, dlWa1n_B1]
    norm_num [rB]
  rw [h0, h1]
  rw [show (3 / 4 : ℝ) ^ 2 + 1 ^ 2 = (5 / 4) ^ 2 by norm_num]
  exact Real.sqrt_sq (by norm_num)

theorem dlSgnorm_B : dlSgnorm rB diagB qtbB 2 = 437 / 125 := by
  unfold dlSgnorm
  rw [dlGnorm_B, dlTemp_B]
  norm_num

theorem dlBnorm_B : dlBnorm qtbB 2 = 89 / 20 := by
  unfold dlBnorm stableNorm
  rw [Finset.sum_range_succ, Finset.sum_range_one]
  rw [show qtbB 0 = 39 / 20 from rfl, show qtbB 1 = 4 from rfl]
  rw [show (39 / 20 : ℝ) ^ 2 + 4 ^ 2 = (89 / 20) ^ 2 by norm_num]
  exact Real.sqrt_sq (by norm_num)

theorem dlT1_B : dlT1 rB diagB qtbB 4 2 zeroV = 7921 / 12500 := by
  unfold dlT1
  rw [dlBnorm_B, dlGnorm_B, dlQnorm_B, dlSgnorm_B]
  norm_num

theorem dlT2_B : dlT2 rB diagB qtbB 4 2 zeroV
    = 1764 / 78125 + Real.sqrt (2200527 / 19531250) := by
  unfold dlT2
  rw [dlT1_B, dlQnorm_B, dlSgnorm_B]
  norm_num

theorem dlAlpha_B : dlAlpha rB diagB qtbB 4 2 zeroV
    = 59031 / 312500 / (1764 / 78125 + Real.sqrt (2200527 / 19531250)) := by
  unfold dlAlpha
  rw [dlQnorm_B, dlSgnorm_B, dlT2_B]
  norm_num

theorem dlAlpha_B_half : 1 / 2 < dlAlpha rB diagB qtbB 4 2 zeroV := by
  rw [dlAlpha_B]
  have hs_nn : 0 ≤ Real.sqrt (2200527 / 19531250) := Real.sqrt_nonneg _
  have hs_lt : Real.sqrt (2200527 / 19531250) < 55503 / 156250 := by
    rw [Real.sqrt_lt' (by norm_num)]
    norm_num
  have hden : 0 < 1764 / 78125 + Real.sqrt (2200527 / 19531250) := by linarith
  rw [lt_div_iff hden]
  linarith

/-- C2 counterexample: at `n = 2`, `R = [[0,3],[·,4]]` packed as `[0,3,4]`,
`diag = [20/7·eps, 4]` (positive), `qtb = [39/20, 4]`, `delta = 4 > 0`, the
step left in `x` by `ei_dogleg` violates the trust-region constraint:
`‖diag·x‖ > 4 = delta` (the zero diagonal of `R` makes the back-substitution
inexact, so the closed-form `alpha` overshoots the sphere). -/
theorem C2_counterexample :
    0 < (4 : ℝ) ∧ (∀ j, j < 2 → 0 < diagB j) ∧
    ¬ stableNorm 2 (fun j => diagB j * ei_dogleg rB diagB qtbB 4 2 zeroV j) ≤ 4 := by
  refine ⟨by norm_num, ?_, ?_⟩
  · intro j hj
    interval_cases j
    · have := epsmch_pos
      unfold diagB
      norm_num
      positivity
    · norm_num [diagB]
  · have hqle : ¬ dlQnorm rB diagB qtbB 2 zeroV ≤ 4 := by
      rw [dlQnorm_B]; norm_num
    have hgne : ¬ dlGnorm rB diagB qtbB 2 = 0 := by
      rw [dlGnorm_B]; norm_num
    have hsge : ¬ (4 : ℝ) ≤ dlSgnorm rB diagB qtbB 2 := by
      rw [dlSgnorm_B]; norm_num
    have hout : ei_dogleg rB diagB qtbB 4 2 zeroV = fun j =>
        (1 - dlAlpha rB diagB qtbB 4 2 zeroV) *
            min (dlSgnorm rB diagB qtbB 2) 4 * dlWa1n rB diagB qtbB 2 j +
          dlAlpha rB diagB qtbB 4 2 zeroV * gnSolve rB qtbB 2 zeroV j := by
      unfold ei_dogleg
      rw [if_neg hqle, if_neg hgne, if_neg hsge]
    have hminB : min (dlSgnorm rB diagB qtbB 2) (4 : ℝ) = 437 / 125 := by
      rw [dlSgnorm_B]
      norm_num
    rw [hout]
    rw [not_le]
    have hα := dlAlpha_B_half
    have hv0 : diagB 0 * ((1 - dlAlpha rB diagB qtbB 4 2 zeroV) *
        min (dlSgnorm rB diagB qtbB 2) 4 * dlWa1n rB diagB qtbB 2 0 +
        dlAlpha rB diagB qtbB 4 2 zeroV * gnSolve rB qtbB 2 zeroV 0)
        = -3 * dlAlpha rB diagB qtbB 4 2 zeroV := by
      rw [dlWa1n_B0, rB_x0]
      unfold diagB
      norm_num
      field_simp [epsmch_ne]
      ring
    have hv1 : diagB 1 * ((1 - dlAlpha rB diagB qtbB 4 2 zeroV) *
        min (dlSgnorm rB diagB qtbB 2) 4 * dlWa1n rB diagB qtbB 2 1 +
        dlAlpha rB diagB qtbB 4 2 zeroV * gnSolve rB qtbB 2 zeroV 1)
        = (1 - dlAlpha rB diagB qtbB 4 2 zeroV) * (437 / 125) +
          4 * dlAlpha rB diagB qtbB 4 2 zeroV := by
      rw [dlWa1n_B1, rB_x1, hminB]
      unfold diagB
      norm_num
      ring
    unfold stableNorm
    rw [Real.lt_sqrt (by norm_num)]
    rw [Finset.sum_range_succ, Finset.sum_range_one]
    simp only []
    rw [hv0, hv1]
    nlinarith [hα]

/-- Witness for the amended trust-region theorem at a concrete instance:
`n = 3`, `R = I` (packed as `r3id`), unit scaling, `qtb = [3,4,0]`,
`delta = 10`; the hypotheses (positive radius, positive scaling,
nonzero `R` diagonal) all hold and the scaled output stays inside the
trust region. -/
theorem C2_amended_trust_region_witness :
    stableNorm 3 (fun j => onesV j * ei_dogleg r3id onesV qtb34 10 3 zeroV j) ≤ 10 :=
  C2_amended_trust_region r3id onesV qtb34 10 3 zeroV (by norm_num)
    (fun j _ => by norm_num [onesV])
    (fun j hj => by
      interval_cases j
      · rw [show rIdx 3 0 0 = 0 from rfl]; norm_num [r3id]
      · rw [show rIdx 3 1 1 = 3 from rfl]; norm_num [r3id]
      · rw [show rIdx 3 2 2 = 5 from rfl]; norm_num [r3id])

/-! ### C3: correctness of the skyline LU factorization and of `solve`

The factorization runs in place over the profile-restricted storage.  The
development below shows that, provided every pivot encountered during the
elimination is nonzero, the factored storage satisfies `L·U = A` on the
leading `n × n` block, and `solve` recovers `x_true` exactly from the
right-hand side `b = A·x_true`.  The key structural fact is envelope
closure: Gaussian elimination creates no fill-in outside a skyline
profile, so the profile-restricted updates of the source agree with the
unrestricted ones. -/

/-- Diagonal positions are always inside the skyline profile. -/
theorem inProf_diag (P : SkyProfile) (r : ℕ) : inProf P r r :=
  ⟨fun h => absurd h (lt_irrefl r), fun h => absurd h (lt_irrefl r)⟩

/-- A represented matrix vanishes strictly left of the row's stored lower
segment. -/
theorem skyrep_zero_low {P : SkyProfile} {M : ℕ → ℕ → K} (hrep : SkyRep P M)
    {r j : ℕ} (hj : j < P.lowBeg r) (hjr : j < r) : M r j = 0 :=
  hrep r j fun hp => absurd (hp.1 hjr) (not_le.2 hj)

/-- A represented matrix vanishes strictly above the column's stored upper
segment. -/
theorem skyrep_zero_up {P : SkyProfile} {M : ℕ → ℕ → K} (hrep : SkyRep P M)
    {j c : ℕ} (hj : j < P.upBeg c) (hjc : j < c) : M j c = 0 :=
  hrep j c fun hp => absurd (hp.2 hjc) (not_le.2 hj)

/-- Envelope closure: at an out-of-profile position `(r, c)`, every product
`M r j * M j c` with `j` strictly below both indices vanishes, so the
skyline profile admits no fill-in outside itself. -/
theorem env_sum_zero {P : SkyProfile} {M : ℕ → ℕ → K} (hrep : SkyRep P M)
    {r c m : ℕ} (hout : ¬ inProf P r c) (hmr : m ≤ r) (hmc : m ≤ c) :
    ∑ j ∈ range m, M r j * M j c = 0 := by
  rcases lt_trichotomy r c with hrc | hrc | hrc
  · have hup : r < P.upBeg c := by
      by_contra h
      exact hout ⟨fun hcr => absurd hrc (lt_asymm hcr), fun _ => not_lt.1 h⟩
    refine Finset.sum_eq_zero fun j hj => ?_
    have hjr : j < r := lt_of_lt_of_le (mem_range.1 hj) hmr
    rw [skyrep_zero_up hrep (lt_trans hjr hup) (lt_trans hjr hrc), mul_zero]
  · subst hrc
    exact absurd (inProf_diag P r) hout
  · have hlow : c < P.lowBeg r := by
      by_contra h
      exact hout ⟨fun _ => not_lt.1 h, fun hrc2 => absurd hrc2 (lt_asymm hrc)⟩
    refine Finset.sum_eq_zero fun j hj => ?_
    have hjc : j < c := lt_of_lt_of_le (mem_range.1 hj) hmc
    rw [skyrep_zero_low hrep (lt_trans hjc hlow) (lt_trans hjc hrc), zero_mul]

/-- A pivot step leaves every row at or above the pivot unchanged. -/
theorem luStep_row_le {P : SkyProfile} {n k r c : ℕ} {M : ℕ → ℕ → K}
    (hr : r ≤ k) : luStep P n k M r c = M r c := by
  simp only [luStep, luUpdate, luScale]
  rw [if_neg fun h => absurd h.1 (not_lt.2 hr),
      if_neg fun h => absurd h.2.1 (not_lt.2 hr)]

/-- A pivot step leaves every column strictly left of the pivot unchanged. -/
theorem luStep_col_lt {P : SkyProfile} {n k r c : ℕ} {M : ℕ → ℕ → K}
    (hc : c < k) : luStep P n k M r c = M r c := by
  simp only [luStep, luUpdate, luScale]
  rw [if_neg fun h => absurd h.2.2.1 (lt_asymm hc),
      if_neg fun h => absurd h.1 (ne_of_lt hc)]

/-- In the pivot column itself only the scaling part of a step acts. -/
theorem luStep_col_eq {P : SkyProfile} {n k r : ℕ} {M : ℕ → ℕ → K} :
    luStep P n k M r k = luScale P n k M r k := by
  simp only [luStep, luUpdate]
  rw [if_neg fun h => absurd h.2.2.1 (lt_irrefl k)]

/-- A diagonal entry is final after its own pivot step: later steps never
touch it. -/
theorem luIter_diag_stable (P : SkyProfile) (n : ℕ) (A : ℕ → ℕ → K) :
    ∀ m c, c ≤ m → luIter P n A m c c = luIter P n A c c c := by
  intro m
  induction m with
  | zero => intro c hc; rw [Nat.le_zero.1 hc]
  | succ m ih =>
    intro c hc
    rcases eq_or_lt_of_le hc with h | h
    · rw [h]
    · have hcm : c ≤ m := Nat.lt_succ_iff.1 h
      show luStep P n m (luIter P n A m) c c = _
      rw [luStep_row_le hcm, ih c hcm]

/-- The loop invariant of the in-place factorization after `k` pivot steps:
the storage still respects the profile; finished lower entries are the
scaled multipliers (stated multiplicatively to avoid division); finished
upper and diagonal entries carry the eliminated values; and the trailing
submatrix holds the `k`-th Schur complement. -/
def luInv (P : SkyProfile) (n : ℕ) (A : ℕ → ℕ → K) (k : ℕ)
    (M : ℕ → ℕ → K) : Prop :=
  SkyRep P M ∧
  (∀ r c, r < n → c < n → c < r → c < k →
    M r c * M c c = A r c - ∑ j ∈ range c, M r j * M j c) ∧
  (∀ r c, r < n → c < n → r ≤ c → r < k →
    M r c = A r c - ∑ j ∈ range r, M r j * M j c) ∧
  (∀ r c, r < n → c < n → k ≤ r → k ≤ c →
    M r c = A r c - ∑ j ∈ range k, M r j * M j c)

/-- One pivot step preserves the factorization invariant, provided the pivot
it divides by is nonzero. -/
theorem luInv_step {P : SkyProfile} {n : ℕ} {A M : ℕ → ℕ → K} {k : ℕ}
    (hrepA : SkyRep P A) (hinv : luInv P n A k M) (hpiv : M k k ≠ 0) :
    luInv P n A (k + 1) (luStep P n k M) := by
  obtain ⟨hrep, hlow, hup, hwork⟩ := hinv
  have hrep' : SkyRep P (luStep P n k M) := by
    intro r c hout
    simp only [luStep, luUpdate, luScale]
    rw [if_neg fun h => hout h.2.2.2.2, if_neg fun h => hout h.2.2.2]
    exact hrep r c hout
  refine ⟨hrep', ?_, ?_, ?_⟩
  · intro r c hr hc hcr hck
    rcases Nat.lt_succ_iff_lt_or_eq.1 hck with h | h
    · have e3 : ∑ j ∈ range c, luStep P n k M r j * luStep P n k M j c
          = ∑ j ∈ range c, M r j * M j c :=
        Finset.sum_congr rfl fun j hj => by
          rw [luStep_col_lt (lt_trans (mem_range.1 hj) h), luStep_col_lt h]
      rw [luStep_col_lt h, luStep_row_le h.le, e3]
      exact hlow r c hr hc hcr h
    · subst h
      have e3 : ∑ j ∈ range c, luStep P n c M r j * luStep P n c M j c
          = ∑ j ∈ range c, M r j * M j c :=
        Finset.sum_congr rfl fun j hj => by
          rw [luStep_col_lt (mem_range.1 hj), luStep_row_le (mem_range.1 hj).le]
      rw [luStep_row_le le_rfl, e3, luStep_col_eq]
      by_cases hin : inProf P r c
      · unfold luScale
        rw [if_pos ⟨rfl, hcr, hr, hin⟩, div_mul_cancel₀ _ hpiv]
        exact hwork r c hr hc hcr.le le_rfl
      · unfold luScale
        rw [if_neg fun h2 => hin h2.2.2.2, hrep r c hin, hrepA r c hin,
            env_sum_zero hrep hin hcr.le le_rfl, zero_mul, sub_zero]
  · intro r c hr hc hrc hrk
    rcases Nat.lt_succ_iff_lt_or_eq.1 hrk with h | h
    · have e3 : ∑ j ∈ range r, luStep P n k M r j * luStep P n k M j c
          = ∑ j ∈ range r, M r j * M j c :=
        Finset.sum_congr rfl fun j hj => by
          rw [luStep_row_le h.le, luStep_row_le (lt_trans (mem_range.1 hj) h).le]
      rw [luStep_row_le h.le, e3]
      exact hup r c hr hc hrc h
    · subst h
      have e3 : ∑ j ∈ range r, luStep P n r M r j * luStep P n r M j c
          = ∑ j ∈ range r, M r j * M j c :=
        Finset.sum_congr rfl fun j hj => by
          rw [luStep_row_le le_rfl, luStep_row_le (mem_range.1 hj).le]
      rw [luStep_row_le le_rfl, e3]
      exact hwork r c hr hc le_rfl hrc
  · intro r c hr hc hkr hkc
    have hkr' : k < r := hkr
    have hkc' : k < c := hkc
    by_cases hin : inProf P r c
    · have e3 : ∑ j ∈ range k, luStep P n k M r j * luStep P n k M j c
          = ∑ j ∈ range k, M r j * M j c :=
        Finset.sum_congr rfl fun j hj => by
          rw [luStep_col_lt (mem_range.1 hj), luStep_row_le (mem_range.1 hj).le]
      have e4 : luStep P n k M k c = M k c := luStep_row_le le_rfl
      have hsc1 : luScale P n k M r c = M r c := by
        simp only [luScale]
        rw [if_neg fun h2 => absurd h2.1 (ne_of_gt hkc')]
      have hsc2 : luScale P n k M k c = M k c := by
        simp only [luScale]
        rw [if_neg fun h2 => absurd h2.2.1 (lt_irrefl k)]
      have hstep : luStep P n k M r c = M r c - luScale P n k M r k * M k c := by
        simp only [luStep, luUpdate]
        rw [if_pos ⟨hkr', hr, hkc', hc, hin⟩, hsc1, hsc2]
      rw [Finset.sum_range_succ, e3, e4, luStep_col_eq, hstep,
          hwork r c hr hc (le_of_lt hkr') (le_of_lt hkc')]
      ring
    · have h0 : luStep P n k M r c = M r c := by
        simp only [luStep, luUpdate, luScale]
        rw [if_neg fun h2 => hin h2.2.2.2.2, if_neg fun h2 => hin h2.2.2.2]
      rw [h0, hrep r c hin, hrepA r c hin,
          env_sum_zero hrep' hin hkr hkc, sub_zero]

/-- The factorization invariant holds after every prefix of the pivot loop. -/
theorem luInv_iter {P : SkyProfile} {n : ℕ} {A : ℕ → ℕ → K}
    (hrepA : SkyRep P A) (hpiv : ∀ j, j < n → luIter P n A j j j ≠ 0) :
    ∀ k, k ≤ n → luInv P n A k (luIter P n A k) := by
  intro k
  induction k with
  | zero =>
    intro _
    refine ⟨hrepA, ?_, ?_, ?_⟩
    · intro r c _ _ _ hck; exact absurd hck (Nat.not_lt_zero c)
    · intro r c _ _ _ hrk; exact absurd hrk (Nat.not_lt_zero r)
    · intro r c _ _ _ _
      show A r c = A r c - ∑ j ∈ range 0, A r j * A j c
      rw [Finset.sum_range_zero, sub_zero]
  | succ k ih =>
    intro hk1
    show luInv P n A (k + 1) (luStep P n k (luIter P n A k))
    exact luInv_step hrepA (ih (Nat.le_of_succ_le hk1)) (hpiv k hk1)

/-- The factored storage reconstructs the matrix: `L·U = A` entrywise on the
leading `n × n` block, with `L` the unit lower factor and `U` the upper
factor read back from the storage. -/
theorem sky_LU {P : SkyProfile} {n : ℕ} {A : ℕ → ℕ → K}
    (hrepA : SkyRep P A) (hpiv : ∀ j, j < n → luIter P n A j j j ≠ 0) :
    ∀ r c, r < n → c < n →
      ∑ j ∈ range n,
        Lent (Skyline_compute P n A) r j * Uent (Skyline_compute P n A) j c
          = A r c := by
  obtain ⟨hrepF, hlow, hup, _⟩ := luInv_iter hrepA hpiv n le_rfl
  intro r c hr hc
  simp only [Skyline_compute]
  by_cases hrc : r ≤ c
  · have hsub : ∑ j ∈ range n, Lent (luIter P n A n) r j * Uent (luIter P n A n) j c
        = ∑ j ∈ range (r + 1), Lent (luIter P n A n) r j * Uent (luIter P n A n) j c := by
      symm
      apply Finset.sum_subset (Finset.range_subset.2 hr)
      intro j hj hnot
      have hjr : r < j := by
        simp only [mem_range] at hj hnot
        omega
      have hL0 : Lent (luIter P n A n) r j = 0 := by
        unfold Lent
        rw [if_neg (by omega), if_neg (by omega)]
      rw [hL0, zero_mul]
    rw [hsub, Finset.sum_range_succ]
    have hsum : ∑ j ∈ range r, Lent (luIter P n A n) r j * Uent (luIter P n A n) j c
        = ∑ j ∈ range r, luIter P n A n r j * luIter P n A n j c :=
      Finset.sum_congr rfl fun j hj => by
        unfold Lent Uent
        rw [if_pos (mem_range.1 hj),
            if_pos (le_of_lt (lt_of_lt_of_le (mem_range.1 hj) hrc))]
    have h1 : Lent (luIter P n A n) r r = 1 := by
      unfold Lent
      rw [if_neg (lt_irrefl r), if_pos rfl]
    have h2 : Uent (luIter P n A n) r c = luIter P n A n r c := by
      unfold Uent
      rw [if_pos hrc]
    rw [hsum, h1, h2, one_mul, hup r c hr hc hrc hr]
    ring
  · push_neg at hrc
    have hsub : ∑ j ∈ range n, Lent (luIter P n A n) r j * Uent (luIter P n A n) j c
        = ∑ j ∈ range (c + 1), Lent (luIter P n A n) r j * Uent (luIter P n A n) j c := by
      symm
      apply Finset.sum_subset (Finset.range_subset.2 hc)
      intro j hj hnot
      have hjc : c < j := by
        simp only [mem_range] at hj hnot
        omega
      have hU0 : Uent (luIter P n A n) j c = 0 := by
        unfold Uent
        rw [if_neg (by omega)]
      rw [hU0, mul_zero]
    rw [hsub, Finset.sum_range_succ]
    have hsum : ∑ j ∈ range c, Lent (luIter P n A n) r j * Uent (luIter P n A n) j c
        = ∑ j ∈ range c, luIter P n A n r j * luIter P n A n j c :=
      Finset.sum_congr rfl fun j hj => by
        unfold Lent Uent
        rw [if_pos (lt_trans (mem_range.1 hj) hrc), if_pos (le_of_lt (mem_range.1 hj))]
    have h1 : Lent (luIter P n A n) r c = luIter P n A n r c := by
      unfold Lent
      rw [if_pos hrc]
    have h2 : Uent (luIter P n A n) c c = luIter P n A n c c := by
      unfold Uent
      rw [if_pos le_rfl]
    rw [hsum, h1, h2]
    linear_combination hlow r c hr hc hrc hc

/-- Unfolding of the forward-substitution fold by one row. -/
theorem skySolveFwd_succ (P : SkyProfile) (M : ℕ → ℕ → K) (b : ℕ → K)
    (m : ℕ) (x0 : ℕ → K) :
    skySolveFwd P M b (m + 1) x0
      = Function.update (skySolveFwd P M b m x0) m
          (b m - ∑ c ∈ (range m).filter (fun c => P.lowBeg m ≤ c),
            skySolveFwd P M b m x0 c * M m c) := by
  unfold skySolveFwd
  rw [List.range_succ, List.foldl_append]
  rfl

/-- Row values of the forward substitution satisfy the lower-triangular
system over the stored profile. -/
theorem skySolveFwd_val (P : SkyProfile) (M : ℕ → ℕ → K) (b : ℕ → K)
    (x0 : ℕ → K) :
    ∀ m r, r < m →
      skySolveFwd P M b m x0 r
        = b r - ∑ c ∈ (range r).filter (fun c => P.lowBeg r ≤ c),
            skySolveFwd P M b m x0 c * M r c := by
  intro m
  induction m with
  | zero => intro r hr; exact absurd hr (Nat.not_lt_zero r)
  | succ m ih =>
    intro r hr
    rcases Nat.lt_succ_iff_lt_or_eq.1 hr with h | h
    · rw [skySolveFwd_succ, Function.update_noteq (Nat.ne_of_lt h), ih r h]
      congr 1
      apply Finset.sum_congr rfl
      intro c hc
      have hcr : c < r := mem_range.1 (Finset.mem_filter.1 hc).1
      rw [Function.update_noteq (by omega : c ≠ m)]
    · subst h
      rw [skySolveFwd_succ, Function.update_same]
      congr 1
      apply Finset.sum_congr rfl
      intro c hc
      have hcr : c < r := mem_range.1 (Finset.mem_filter.1 hc).1
      rw [Function.update_noteq (Nat.ne_of_lt hcr)]

/-- The exact intermediate vector of the triangular solve: `y = U·x_true`. -/
def skyY (P : SkyProfile) (n : ℕ) (M : ℕ → ℕ → K) (xt : ℕ → K) : ℕ → K :=
  fun r => ∑ c ∈ range n, Uent M r c * xt c

/-- The right-hand side `b = A·x_true` of the claim. -/
def skyB (n : ℕ) (A : ℕ → ℕ → K) (xt : ℕ → K) : ℕ → K :=
  fun row => ∑ c ∈ range n, A row c * xt c

/-- `U·x_true` solves the unit lower-triangular system with right-hand side
`A·x_true`, by the factorization identity. -/
theorem skyY_lsolve {P : SkyProfile} {n : ℕ} {A M : ℕ → ℕ → K} {xt : ℕ → K}
    (hfact : ∀ r c, r < n → c < n →
      ∑ j ∈ range n, Lent M r j * Uent M j c = A r c)
    (r : ℕ) (hr : r < n) :
    skyY P n M xt r = skyB n A xt r - ∑ c ∈ range r, M r c * skyY P n M xt c := by
  have key : ∑ j ∈ range (r + 1), Lent M r j * skyY P n M xt j = skyB n A xt r := by
    have h1 : ∑ j ∈ range (r + 1), Lent M r j * skyY P n M xt j
        = ∑ j ∈ range n, Lent M r j * skyY P n M xt j := by
      apply Finset.sum_subset (Finset.range_subset.2 hr)
      intro j hj hnot
      have hjr : r < j := by
        simp only [mem_range] at hj hnot
        omega
      have hL0 : Lent M r j = 0 := by
        unfold Lent
        rw [if_neg (by omega), if_neg (by omega)]
      rw [hL0, zero_mul]
    rw [h1]
    simp only [skyY, skyB]
    calc ∑ j ∈ range n, Lent M r j * ∑ c ∈ range n, Uent M j c * xt c
        = ∑ j ∈ range n, ∑ c ∈ range n, Lent M r j * Uent M j c * xt c := by
          refine Finset.sum_congr rfl fun j _ => ?_
          rw [Finset.mul_sum]
          exact Finset.sum_congr rfl fun c _ => (mul_assoc _ _ _).symm
      _ = ∑ c ∈ range n, ∑ j ∈ range n, Lent M r j * Uent M j c * xt c :=
          Finset.sum_comm
      _ = ∑ c ∈ range n, (∑ j ∈ range n, Lent M r j * Uent M j c) * xt c := by
          refine Finset.sum_congr rfl fun c _ => ?_
          rw [Finset.sum_mul]
      _ = ∑ c ∈ range n, A r c * xt c := by
          refine Finset.sum_congr rfl fun c hc => ?_
          rw [hfact r c hr (mem_range.1 hc)]
  rw [Finset.sum_range_succ] at key
  have hdiag : Lent M r r = 1 := by
    unfold Lent
    rw [if_neg (lt_irrefl r), if_pos rfl]
  rw [hdiag, one_mul] at key
  have hsum : ∑ j ∈ range r, Lent M r j * skyY P n M xt j
      = ∑ j ∈ range r, M r j * skyY P n M xt j :=
    Finset.sum_congr rfl fun j hj => by
      unfold Lent
      rw [if_pos (mem_range.1 hj)]
  rw [hsum] at key
  linear_combination key

/-- The forward substitution of `solve` computes exactly `U·x_true` when fed
`b = A·x_true`, by uniqueness of the unit lower-triangular solve. -/
theorem fwd_eq_skyY {P : SkyProfile} {n : ℕ} {A M : ℕ → ℕ → K} {xt x0 : ℕ → K}
    (hrepM : SkyRep P M)
    (hfact : ∀ r c, r < n → c < n →
      ∑ j ∈ range n, Lent M r j * Uent M j c = A r c) :
    ∀ r, r < n → skySolveFwd P M (skyB n A xt) n x0 r = skyY P n M xt r := by
  intro r
  induction r using Nat.strong_induction_on with
  | _ r ih =>
    intro hr
    rw [skySolveFwd_val P M (skyB n A xt) x0 n r hr, skyY_lsolve hfact r hr]
    congr 1
    rw [Finset.sum_filter]
    apply Finset.sum_congr rfl
    intro c hc
    have hcr : c < r := mem_range.1 hc
    by_cases hp : P.lowBeg r ≤ c
    · rw [if_pos hp, ih c hcr (lt_trans hcr hr)]
      ring
    · rw [if_neg hp, skyrep_zero_low hrepM (not_le.1 hp) hcr, zero_mul]

/-- `U·x_true` written over the upper-triangular index range. -/
theorem skyY_eq_Ico {P : SkyProfile} {n : ℕ} {M : ℕ → ℕ → K} {xt : ℕ → K}
    (r : ℕ) (hr : r < n) :
    skyY P n M xt r = ∑ c ∈ Ico r n, M r c * xt c := by
  show ∑ c ∈ range n, Uent M r c * xt c = _
  rw [range_eq_Ico, ← Finset.sum_Ico_consecutive _ (Nat.zero_le r) hr.le]
  have h1 : ∑ c ∈ Ico 0 r, Uent M r c * xt c = 0 :=
    Finset.sum_eq_zero fun c hc => by
      have hcr : c < r := (Finset.mem_Ico.1 hc).2
      unfold Uent
      rw [if_neg (by omega : ¬ r ≤ c), zero_mul]
  have h2 : ∑ c ∈ Ico r n, Uent M r c * xt c = ∑ c ∈ Ico r n, M r c * xt c :=
    Finset.sum_congr rfl fun c hc => by
      unfold Uent
      rw [if_pos (Finset.mem_Ico.1 hc).1]
  rw [h1, h2, zero_add]

/-- Correctness of the back-substitution loop: entering the loop at column
`m` with the trailing entries already solved and the leading entries
partially reduced, the loop leaves `x_true` in every position except row 0,
which still awaits its final division. -/
theorem skyBwd_spec {P : SkyProfile} {n : ℕ} {M : ℕ → ℕ → K} {y xt : ℕ → K}
    (hdg : ∀ c, c < n → M c c ≠ 0)
    (hrepM : SkyRep P M)
    (hy : ∀ r, r < n → y r = ∑ c ∈ Ico r n, M r c * xt c) :
    ∀ m, m < n → ∀ x : ℕ → K,
      (∀ r, m < r → r < n → x r = xt r) →
      (∀ r, r ≤ m → x r = y r - ∑ c ∈ Ico (m + 1) n, M r c * xt c) →
      (∀ r, 1 ≤ r → r < n → skySolveBwd P M m x r = xt r) ∧
      skySolveBwd P M m x 0 = y 0 - ∑ c ∈ Ico 1 n, M 0 c * xt c := by
  intro m
  induction m with
  | zero =>
    intro _ x hhi hlo
    exact ⟨fun r h1 h2 => hhi r h1 h2, hlo 0 le_rfl⟩
  | succ m ih =>
    intro hm1 x hhi hlo
    have hmn : m < n := lt_trans (Nat.lt_succ_self m) hm1
    have hm1n : m + 1 < n := hm1
    have hxm : x (m + 1) = M (m + 1) (m + 1) * xt (m + 1) := by
      rw [hlo (m + 1) le_rfl, hy (m + 1) hm1n,
          Finset.sum_eq_sum_Ico_succ_bot hm1n]
      ring
    have hq : x (m + 1) / M (m + 1) (m + 1) = xt (m + 1) := by
      rw [hxm, mul_div_cancel_left₀ _ (hdg (m + 1) hm1n)]
    have hstep : skySolveBwd P M (m + 1) x
        = skySolveBwd P M m (skyBwdStep P M (m + 1) x) := rfl
    rw [hstep]
    apply ih hmn
    · intro r hr1 hr2
      by_cases he : r = m + 1
      · subst he
        simp only [skyBwdStep]
        rw [if_pos (by trivial)]
        exact hq
      · have hr1' : m + 1 < r := by omega
        simp only [skyBwdStep]
        rw [if_neg he, if_neg (fun h => absurd h.1 (by omega))]
        exact hhi r hr1' hr2
    · intro r hr
      simp only [skyBwdStep]
      rw [if_neg (by omega : ¬ r = m + 1)]
      by_cases hup : P.upBeg (m + 1) ≤ r
      · rw [if_pos ⟨by omega, hup⟩, hq, hlo r (by omega),
            Finset.sum_eq_sum_Ico_succ_bot hm1n]
        ring
      · rw [if_neg (fun h => hup h.2), hlo r (by omega),
            Finset.sum_eq_sum_Ico_succ_bot hm1n,
            skyrep_zero_up hrepM (not_le.1 hup) (by omega)]
        ring

set_option maxHeartbeats 1000000 in
/-- C3: for every skyline-represented square matrix whose elimination meets
only nonzero diagonal pivots, the factored storage of
`SkylineInplaceLU::compute` satisfies `L·U = A` entrywise on the `n × n`
block (`L` unit lower with unstored unit diagonal, `U` upper), and for every
right-hand side `b = A·x_true`, `solve` leaves exactly `x_true` in the
output vector. -/
theorem C3_skyline_lu_correct (P : SkyProfile) (n : ℕ) (A : ℕ → ℕ → K)
    (xt x0 : ℕ → K) (transposed : ℤ)
    (hrepA : SkyRep P A)
    (hpiv : ∀ j, j < n → luIter P n A j j j ≠ 0) :
    (∀ r c, r < n → c < n →
      ∑ j ∈ range n,
        Lent (Skyline_compute P n A) r j * Uent (Skyline_compute P n A) j c
          = A r c) ∧
    (∀ r, r < n →
      (Skyline_solve P (Skyline_compute P n A) n (skyB n A xt) x0 transposed).1 r
        = xt r) := by
  have hfact := sky_LU hrepA hpiv
  refine ⟨hfact, ?_⟩
  intro r hr
  have hn : 0 < n := lt_of_le_of_lt (Nat.zero_le r) hr
  obtain ⟨hrepF, _, _, _⟩ := luInv_iter hrepA hpiv n le_rfl
  have hrepF' : SkyRep P (Skyline_compute P n A) := hrepF
  have hdF : ∀ c, c < n → Skyline_compute P n A c c ≠ 0 := by
    intro c hc
    show luIter P n A n c c ≠ 0
    rw [luIter_diag_stable P n A n c hc.le]
    exact hpiv c hc
  have hyv : ∀ r', r' < n →
      skySolveFwd P (Skyline_compute P n A) (skyB n A xt) n x0 r'
        = ∑ c ∈ Ico r' n, Skyline_compute P n A r' c * xt c := by
    intro r' hr'
    rw [fwd_eq_skyY hrepF' hfact r' hr', skyY_eq_Ico r' hr']
  have hbwd := skyBwd_spec hdF hrepF' hyv (n - 1) (by omega)
      (skySolveFwd P (Skyline_compute P n A) (skyB n A xt) n x0)
      (fun r' h1 h2 => absurd h2 (by omega))
      (fun r' hr' => by
        have he : (n - 1) + 1 = n := by omega
        rw [he, Finset.Ico_self, Finset.sum_empty, sub_zero])
  have hsolve : (Skyline_solve P (Skyline_compute P n A) n (skyB n A xt) x0 transposed).1
      = Function.update
          (skySolveBwd P (Skyline_compute P n A) (n - 1)
            (skySolveFwd P (Skyline_compute P n A) (skyB n A xt) n x0)) 0
          (skySolveBwd P (Skyline_compute P n A) (n - 1)
            (skySolveFwd P (Skyline_compute P n A) (skyB n A xt) n x0) 0
            / Skyline_compute P n A 0 0) := rfl
  rw [hsolve]
  rcases Nat.eq_zero_or_pos r with h0 | h1
  · subst h0
    rw [Function.update_same, hbwd.2, hyv 0 hn,
        Finset.sum_eq_sum_Ico_succ_bot hn,
        show (0 : ℕ) + 1 = 1 from rfl, add_sub_cancel_right]
    exact mul_div_cancel_left₀ _ (hdF 0 hn)
  · rw [Function.update_noteq (by omega : r ≠ 0)]
    exact hbwd.1 r h1 hr

/-- The full skyline profile used in the concrete witness instance. -/
def PW : SkyProfile := ⟨fun _ => 0, fun _ => 0⟩

/-- The witness matrix, strictly diagonally dominant `[[2, 1], [1, 3]]`. -/
def AW : ℕ → ℕ → ℚ := fun r c =>
  if r = 0 ∧ c = 0 then 2 else if r = 0 ∧ c = 1 then 1
  else if r = 1 ∧ c = 0 then 1 else if r = 1 ∧ c = 1 then 3 else 0

/-- The witness true solution `[1, 2]`. -/
def xtW : ℕ → ℚ := fun i => if i = 0 then 1 else if i = 1 then 2 else 0

/-- The witness initial contents of the output vector. -/
def x0W : ℕ → ℚ := fun _ => 0

/-- Witness for C3 at a concrete instance over exact rational arithmetic:
the `2 × 2` diagonally dominant matrix `[[2, 1], [1, 3]]` with
`x_true = [1, 2]`; both pivots (`2` and `5/2`) are nonzero, the factored
storage reconstructs the matrix and `solve` returns `x_true`. -/
theorem C3_skyline_lu_correct_witness :
    (∀ r c, r < 2 → c < 2 →
      ∑ j ∈ range 2,
        Lent (Skyline_compute PW 2 AW) r j * Uent (Skyline_compute PW 2 AW) j c
          = AW r c) ∧
    (∀ r, r < 2 →
      (Skyline_solve PW (Skyline_compute PW 2 AW) 2 (skyB 2 AW xtW) x0W 0).1 r
        = xtW r) :=
  C3_skyline_lu_correct PW 2 AW xtW x0W 0
    (fun r c h => absurd ⟨fun _ => Nat.zero_le c, fun _ => Nat.zero_le r⟩ h)
    (by
      intro j hj
      interval_cases j
      · show AW 0 0 ≠ 0
        norm_num [AW]
      · show luStep PW 2 0 AW 1 1 ≠ 0
        norm_num [luStep, luUpdate, luScale, AW, PW, inProf])

end EigenVerify
